import Mathlib

/-!
Verification development for the qiskit-toqm repository.

The repository's own C++ sources expose the libtoqm engine through a
pybind11 binding layer (`src/main.cpp`).  The binding layer is embedded
directly from that file (value types, their constructors, the clone-based
mapper construction).  The engine behind `ToqmMapper::run` is not part of
the repository snapshot, so it is modelled from the specification
(sections 3, 4.1-4.6, 7 and 8 of spec.md): a best-first search over
partial-solution nodes with pluggable queue, expander, cost, latency,
node-mutation and filter strategies.
-/

namespace Toqm

/-- Coupling map value type, embedded from `src/main.cpp`
(`py::class_<CouplingMap>`): a physical-qubit count and an edge set of
`(int, int)` pairs, stored without validation. -/
structure CouplingMap where
  numPhysicalQubits : Nat
  edges : List (Int × Int)
deriving DecidableEq

/-- Gate operation value type, embedded from `src/main.cpp`
(`py::class_<GateOp>`): a unique id, an opaque type string, and the
logical control / target operands.  Modelled from the spec: an absent
operand (single-qubit or zero-operand gate) is encoded as `-1`, matching
the binding constructors that omit `control` and/or `target`. -/
structure GateOp where
  uid : Int
  type : String
  control : Int
  target : Int
deriving DecidableEq

/-- Scheduled gate value type, embedded from `src/main.cpp`
(`py::class_<ScheduledGateOp>`): the gate, its assigned physical
operands, and its cycle window `[cycle, cycle + latency)`. -/
structure ScheduledGateOp where
  gateOp : GateOp
  physicalTarget : Int
  physicalControl : Int
  cycle : Int
  latency : Int
deriving DecidableEq

/-- Result value type, embedded from `src/main.cpp`
(`py::class_<ToqmResult>`): the schedule plus run statistics. -/
structure ToqmResult where
  scheduledGates : List ScheduledGateOp
  remainingInQueue : Nat
  numPhysicalQubits : Nat
  numLogicalQubits : Nat
  laq : List Int
  inferredQal : List Int
  inferredLaq : List Int
  idealCycles : Int
  numPopped : Nat
  filterStats : List (Nat × Nat)
deriving DecidableEq

/-- Modelled from the spec: the error taxonomy of section 7 (the engine
behind the binding is not in the source snapshot).  Structural input
errors and the search-exhaustion outcome. -/
inductive ToqmError
  | InvalidCouplingMap
  | InvalidGateOperands
  | InvalidInitialMapping
  | EmptySolutionError
deriving DecidableEq

/-- Modelled from the spec: a search node ("partial-solution state",
spec section 3).  It owns the logical-to-physical mapping `laq`, the
next-free cycle of every physical qubit, the accumulated schedule, and
the not-yet-scheduled gates in program order. -/
structure Node where
  laq : List Int
  free : Int → Int
  sched : List ScheduledGateOp
  remaining : List GateOp

/-- Modelled from the spec: the frontier variants exposed by the binding
(`DefaultQueue`, `TrimSlowNodes`), spec section 4.2. -/
inductive QueueKind
  | defaultQueue
  | trimSlowNodes (maxSize targetSize : Nat)

/-- Modelled from the spec: the expansion variants exposed by the
binding (`DefaultExpander`, `GreedyTopK`, `NoSwaps`), spec section 4.3. -/
inductive ExpanderKind
  | defaultExpander
  | greedyTopK (k : Nat)
  | noSwaps

/-- Modelled from the spec: a filter strategy (spec section 4.6) keeps a
memory of fingerprints of previously seen states and accepts or rejects
a freshly generated state given that memory. -/
structure FilterS where
  accept : Node → List (List Int) → Bool
  fingerprint : Node → List Int

/-- The orchestrator object built by the binding's `py::init` lambda in
`src/main.cpp`: it owns clones of the supplied queue, expander, cost,
latency, node-mod and filter strategies, plus configuration flags. -/
structure ToqmMapper where
  queueKind : QueueKind
  expanderKind : ExpanderKind
  costFn : Node → Int
  latencyFn : GateOp → Int
  nodeMods : List (Node → Node)
  filters : List FilterS
  initialSearchCycles : Int
  retainPopped : Bool
  verbose : Bool

/-- The argument bundle of `ToqmMapper::run` (gate list, logical qubit
count, coupling map, optional initial mapping).  The `fuel` field is the
model's rendering of the externally configured exploration bound of spec
section 4.1: the search performs at most `fuel` pops. -/
structure RunArgs where
  gates : List GateOp
  numLogicalQubits : Nat
  couplingMap : CouplingMap
  initialLaq : Option (List Int)
  fuel : Nat

/-- Physical image of a logical qubit under a mapping; `-1` for an
absent (`-1`) or out-of-range logical operand. -/
def physOf (laq : List Int) (l : Int) : Int :=
  if 0 ≤ l then laq.getD l.toNat (-1) else -1

/-- Logical qubit currently mapped to a physical qubit, `-1` if none. -/
def logicalAt (laq : List Int) (p : Int) : Int :=
  let i := laq.indexOf p
  if i < laq.length then (i : Int) else -1

/-- Pointwise update of the per-physical-qubit next-free-cycle map. -/
def updFree (f : Int → Int) (p v : Int) : Int → Int :=
  fun q => if q = p then v else f q

/-- The present logical operands of a gate. -/
def GateOp.qubits (g : GateOp) : List Int :=
  (if 0 ≤ g.control then [g.control] else []) ++
    (if 0 ≤ g.target then [g.target] else [])

/-- Two gates share a logical operand (the per-qubit dependency relation
of spec section 3). -/
def sharesQubit (g h : GateOp) : Bool :=
  g.qubits.any (fun l => h.qubits.any (fun x => x == l))

/-- Modelled from the spec: the ready-gate cursor (spec sections 3 and
4.3).  `readySplit rem` lists every ready gate of `rem` (no earlier gate
of `rem` shares a logical qubit with it) together with `rem` minus that
gate's occurrence. -/
def readySplit : List GateOp → List (GateOp × List GateOp)
  | [] => []
  | g :: rest =>
      (g, rest) ::
        (readySplit rest).filterMap
          (fun p => if sharesQubit g p.1 then none else some (p.1, g :: p.2))

/-- Modelled from the spec: successor that schedules a ready gate at its
earliest valid cycle (spec section 4.3).  A two-qubit gate requires its
physical operand pair to be a coupling-map edge; the gate starts at the
maximum of its operands' next-free cycles and advances both. -/
def gateChild (cm : CouplingMap) (lat : GateOp → Int) (n : Node)
    (g : GateOp) (rest : List GateOp) : Option Node :=
  if 0 ≤ g.control then
    let pc := physOf n.laq g.control
    let pt := physOf n.laq g.target
    if (pc, pt) ∈ cm.edges then
      let start := max (n.free pc) (n.free pt)
      let d := lat g
      some { laq := n.laq,
             free := updFree (updFree n.free pc (start + d)) pt (start + d),
             sched := n.sched ++
               [{ gateOp := g, physicalTarget := pt, physicalControl := pc,
                  cycle := start, latency := d }],
             remaining := rest }
    else none
  else if 0 ≤ g.target then
    let pt := physOf n.laq g.target
    let start := n.free pt
    let d := lat g
    some { laq := n.laq,
           free := updFree n.free pt (start + d),
           sched := n.sched ++
             [{ gateOp := g, physicalTarget := pt, physicalControl := -1,
                cycle := start, latency := d }],
           remaining := rest }
  else
    some { laq := n.laq, free := n.free,
           sched := n.sched ++
             [{ gateOp := g, physicalTarget := -1, physicalControl := -1,
                cycle := 0, latency := lat g }],
           remaining := rest }

/-- The transposition of two physical qubits, as a function. -/
def swapFun (p1 p2 x : Int) : Int :=
  if x = p1 then p2 else if x = p2 then p1 else x

/-- The inserted remap operation, as a gate: uid `-1`, type `"swap"`,
operands the logical occupants of the swapped physical pair. -/
def swapGate (laq : List Int) (e : Int × Int) : GateOp :=
  { uid := -1, type := "swap",
    control := logicalAt laq e.1, target := logicalAt laq e.2 }

/-- Modelled from the spec: successor that inserts a remap (SWAP)
operation across a coupling-map edge (spec section 4.3), exchanging the
logical occupants of the two physical qubits and advancing both
next-free cycles by the remap's latency. -/
def swapChild (lat : GateOp → Int) (n : Node) (e : Int × Int) : Node :=
  let g := swapGate n.laq e
  let start := max (n.free e.1) (n.free e.2)
  let d := lat g
  { laq := n.laq.map (swapFun e.1 e.2),
    free := updFree (updFree n.free e.1 (start + d)) e.2 (start + d),
    sched := n.sched ++
      [{ gateOp := g, physicalTarget := e.2, physicalControl := e.1,
         cycle := start, latency := d }],
    remaining := n.remaining }

/-- Insertion step of the cost-ordered sort used by the bounded queue
and the top-K expander. -/
def insertByCost (key : Node → Int) (n : Node) : List Node → List Node
  | [] => [n]
  | x :: xs => if key n ≤ key x then n :: x :: xs else x :: insertByCost key n xs

/-- Cost-ordered insertion sort (lower key first). -/
def sortByCost (key : Node → Int) : List Node → List Node
  | [] => []
  | x :: xs => insertByCost key x (sortByCost key xs)

/-- All gate-scheduling successors of a node. -/
def gateChildren (cm : CouplingMap) (lat : GateOp → Int) (n : Node) : List Node :=
  (readySplit n.remaining).filterMap (fun p => gateChild cm lat n p.1 p.2)

/-- All remap-insertion successors of a node. -/
def swapChildren (lat : GateOp → Int) (cm : CouplingMap) (n : Node) : List Node :=
  cm.edges.map (swapChild lat n)

/-- Modelled from the spec: the three expansion variants of spec section
4.3.  The default variant generates every legal move; `greedyTopK` keeps
the `k` best-ranked moves (ranked here by the configured cost function,
a documented heuristic choice, spec section 9 leaves the exact ranking
open); `noSwaps` disables remap insertion. -/
def expandWith (ek : ExpanderKind) (cm : CouplingMap) (lat : GateOp → Int)
    (key : Node → Int) (n : Node) : List Node :=
  match ek with
  | .defaultExpander => gateChildren cm lat n ++ swapChildren lat cm n
  | .greedyTopK k => (sortByCost key (gateChildren cm lat n ++ swapChildren lat cm n)).take k
  | .noSwaps => gateChildren cm lat n

/-- Node-mutation strategies compose sequentially (spec section 4.5). -/
def applyMods (mods : List (Node → Node)) (n : Node) : Node :=
  mods.foldl (fun s f => f s) n

/-- Modelled from the spec: frontier pop (spec section 4.2): remove and
return the minimum by ordering key, ties broken by insertion order. -/
def popMin (key : Node → Int) : List Node → Option (Node × List Node)
  | [] => none
  | x :: xs =>
      match popMin key xs with
      | none => some (x, xs)
      | some (y, ys) => if key x ≤ key y then some (x, xs) else some (y, x :: ys)

/-- Modelled from the spec: frontier push (spec section 4.2).  The
default queue is unbounded; `trimSlowNodes` discards the worst-ranked
excess states beyond its capacity after each push. -/
def pushQueue (qk : QueueKind) (key : Node → Int) (q : List Node) (c : Node) :
    List Node :=
  match qk with
  | .defaultQueue => q ++ [c]
  | .trimSlowNodes maxSize targetSize =>
      let q' := q ++ [c]
      if maxSize < q'.length then (sortByCost key q').take targetSize else q'

/-- A child must pass every configured filter to be pushed (spec
section 4.6). -/
def acceptAll : List FilterS → List (List (List Int)) → Node → Bool
  | f :: fs, mem :: mems, c => f.accept c mem && acceptAll fs mems c
  | _, _, _ => true

/-- Record an accepted child's fingerprint in every filter's memory. -/
def addFingerprints : List FilterS → List (List (List Int)) → Node →
    List (List (List Int))
  | f :: fs, mem :: mems, c => (f.fingerprint c :: mem) :: addFingerprints fs mems c
  | _, mems, _ => mems

/-- Per-filter accept/reject counters (spec section 4.6). -/
def statsFor : List FilterS → List (List (List Int)) → List (Nat × Nat) → Node →
    List (Nat × Nat)
  | f :: fs, mem :: mems, st :: sts, c =>
      (if f.accept c mem then (st.1 + 1, st.2) else (st.1, st.2 + 1)) ::
        statsFor fs mems sts c
  | _, _, sts, _ => sts

/-- Modelled from the spec: the orchestrator's loop state (spec section
4.1): the frontier, the per-filter memories and statistics, the popped
counter, and the best completed schedule found so far. -/
structure LoopState where
  queue : List Node
  mems : List (List (List Int))
  stats : List (Nat × Nat)
  numPopped : Nat
  best : Option Node

/-- Push one mutated child through the filters into the frontier. -/
def pushChild (m : ToqmMapper) (ls : LoopState) (c : Node) : LoopState :=
  if acceptAll m.filters ls.mems c then
    { ls with queue := pushQueue m.queueKind m.costFn ls.queue c,
              mems := addFingerprints m.filters ls.mems c,
              stats := statsFor m.filters ls.mems ls.stats c }
  else
    { ls with stats := statsFor m.filters ls.mems ls.stats c }

/-- Push a batch of children. -/
def pushChildren (m : ToqmMapper) (ls : LoopState) (cs : List Node) : LoopState :=
  cs.foldl (pushChild m) ls

/-- Total cycle count of a node: the largest next-free cycle over the
physical qubits. -/
def nodeCycles (nP : Nat) (n : Node) : Int :=
  (List.range nP).foldr (fun p acc => max (n.free (Int.ofNat p)) acc) 0

/-- Modelled from the spec: completed schedules are compared by lower
cycle count, then lower accumulated cost (spec section 4.1). -/
def updateBest (nP : Nat) (key : Node → Int) (best : Option Node) (n : Node) :
    Option Node :=
  match best with
  | none => some n
  | some b =>
      if nodeCycles nP n < nodeCycles nP b ∨
          (nodeCycles nP n = nodeCycles nP b ∧ key n < key b) then some n
      else some b

/-- Modelled from the spec: the `Searching` loop of spec section 4.1:
pop the best state; a state with no remaining gates is a completed
schedule and updates the best-known; otherwise it is expanded, its
children mutated, filtered and pushed.  The loop ends when the frontier
is empty or the exploration bound (`fuel`) is reached. -/
def searchLoop (m : ToqmMapper) (cm : CouplingMap) : Nat → LoopState → LoopState
  | 0, ls => ls
  | Nat.succ fuel, ls =>
      match popMin m.costFn ls.queue with
      | none => ls
      | some (n, q') =>
          let ls' : LoopState :=
            { ls with queue := q', numPopped := ls.numPopped + 1 }
          if n.remaining.isEmpty then
            searchLoop m cm fuel
              { ls' with best := updateBest cm.numPhysicalQubits m.costFn ls'.best n }
          else
            searchLoop m cm fuel
              (pushChildren m ls'
                ((expandWith m.expanderKind cm m.latencyFn m.costFn n).map
                  (applyMods m.nodeMods)))

/-- Edge validity: every endpoint lies in `[0, numPhysicalQubits)`
(spec section 7, `InvalidCouplingMap`). -/
def validEdgesB (cm : CouplingMap) : Bool :=
  cm.edges.all fun e =>
    decide (0 ≤ e.1) && decide (e.1 < (cm.numPhysicalQubits : Int)) &&
    decide (0 ≤ e.2) && decide (e.2 < (cm.numPhysicalQubits : Int))

/-- Gate validity (spec section 7, `InvalidGateOperands`): each present
operand lies in `[0, numLogicalQubits)`, and a present control differs
from the target (which must then be present). -/
def validGateB (nL : Nat) (g : GateOp) : Bool :=
  (g.target == -1 || (decide (0 ≤ g.target) && decide (g.target < (nL : Int)))) &&
  (g.control == -1 ||
    (decide (0 ≤ g.control) && decide (g.control < (nL : Int)) &&
     decide (0 ≤ g.target) && (g.control != g.target)))

/-- Initial-mapping validity (spec section 7, `InvalidInitialMapping`):
an injective array of the declared logical cardinality whose entries are
physical qubit indices. -/
def validMappingB (nP nL : Nat) (laq : List Int) : Bool :=
  (laq.length == nL) &&
  laq.all (fun p => decide (0 ≤ p) && decide (p < (nP : Int))) &&
  decide laq.Nodup

/-- The default identity initial mapping (spec section 3 lifecycle). -/
def identityLaq (nL : Nat) : List Int :=
  (List.range nL).map Int.ofNat

/-- The inferred physical-to-logical permutation reported in the result. -/
def invertLaq (laq : List Int) (nP : Nat) : List Int :=
  (List.range nP).map (fun p => logicalAt laq (Int.ofNat p))

/-- One step of the connectivity-ignoring critical-path computation. -/
def idealStep (lat : GateOp → Int) (fin : List Int) (g : GateOp) : List Int :=
  let finAt : Int → Int := fun l => if 0 ≤ l then fin.getD l.toNat 0 else 0
  let s := max (finAt g.control) (finAt g.target)
  let bump : List Int → Int → List Int := fun f l =>
    if 0 ≤ l then f.set l.toNat (s + lat g) else f
  bump (bump fin g.control) g.target

/-- Modelled from the spec: `idealCycles`, the lower bound on schedule
length ignoring connectivity (glossary): the critical-path length of the
per-qubit dependency chains under the supplied latencies. -/
def idealCyclesCalc (lat : GateOp → Int) (nL : Nat) (gates : List GateOp) : Int :=
  (gates.foldl (idealStep lat) (List.replicate nL 0)).foldr max 0

/-- The root partial solution (spec section 3 lifecycle). -/
def mkRoot (laq0 : List Int) (gates : List GateOp) : Node :=
  { laq := laq0, free := fun _ => 0, sched := [], remaining := gates }

/-- The loop state seeded with the root (spec section 4.1,
`Initializing`). -/
def initialLoopState (m : ToqmMapper) (root : Node) : LoopState :=
  { queue := [root],
    mems := m.filters.map (fun _ => []),
    stats := m.filters.map (fun _ => (0, 0)),
    numPopped := 0,
    best := none }

/-- Assemble the result from the best completed node. -/
def mkResult (a : RunArgs) (m : ToqmMapper) (laq0 : List Int) (ls : LoopState)
    (b : Node) : ToqmResult :=
  { scheduledGates := b.sched,
    remainingInQueue := ls.queue.length,
    numPhysicalQubits := a.couplingMap.numPhysicalQubits,
    numLogicalQubits := a.numLogicalQubits,
    laq := b.laq,
    inferredQal := invertLaq laq0 a.couplingMap.numPhysicalQubits,
    inferredLaq := laq0,
    idealCycles := idealCyclesCalc m.latencyFn a.numLogicalQubits a.gates,
    numPopped := ls.numPopped,
    filterStats := ls.stats }

/-- Modelled from the spec: `ToqmMapper::run` (spec sections 4.1 and 7).
Structural inputs are validated eagerly, in the order coupling map, gate
operands, initial mapping, before any search work; then the root is
seeded and the search loop runs.  At `Done`, the best completed schedule
is emitted; if none was ever found and the gate list is non-empty the
run fails with `EmptySolutionError` (an empty gate list is a trivially
completed zero-gate schedule, never an error). -/
def runToqm (m : ToqmMapper) (a : RunArgs) : Except ToqmError ToqmResult :=
  let cm := a.couplingMap
  if validEdgesB cm then
    if a.gates.all (validGateB a.numLogicalQubits) then
      let laq0 := a.initialLaq.getD (identityLaq a.numLogicalQubits)
      if validMappingB cm.numPhysicalQubits a.numLogicalQubits laq0 then
        let ls := searchLoop m cm a.fuel
          (initialLoopState m (mkRoot laq0 a.gates))
        match ls.best with
        | some b => .ok (mkResult a m laq0 ls b)
        | none =>
            if a.gates.isEmpty then
              .ok (mkResult a m laq0 ls (mkRoot laq0 a.gates))
            else .error .EmptySolutionError
      else .error .InvalidInitialMapping
    else .error .InvalidGateOperands
  else .error .InvalidCouplingMap

/-! Binding-layer value constructors, embedded from `src/main.cpp`:
`py::init` overloads of `GateOp` and `CouplingMap` construct the value
directly, with no operand validation; omitted operands default to `-1`
(Modelled from the spec for the default, the libtoqm header holding the
default argument is not in the snapshot). -/

/-- `GateOp(uid, type)` binding constructor. -/
def GateOp.mk2 (uid : Int) (ty : String) : GateOp :=
  { uid := uid, type := ty, control := -1, target := -1 }

/-- `GateOp(uid, type, target)` binding constructor. -/
def GateOp.mk3 (uid : Int) (ty : String) (target : Int) : GateOp :=
  { uid := uid, type := ty, control := -1, target := target }

/-- `GateOp(uid, type, control, target)` binding constructor. -/
def GateOp.mk4 (uid : Int) (ty : String) (control target : Int) : GateOp :=
  { uid := uid, type := ty, control := control, target := target }

/-- `CouplingMap(numPhysicalQubits, edges)` binding constructor. -/
def CouplingMap.make (n : Nat) (es : List (Int × Int)) : CouplingMap :=
  { numPhysicalQubits := n, edges := es }

/-- The `edges` field assignment exposed by `def_readwrite`. -/
def CouplingMap.withEdges (cm : CouplingMap) (es : List (Int × Int)) : CouplingMap :=
  { cm with edges := es }

/-- The `control` field assignment exposed by `def_readwrite`. -/
def GateOp.withControl (g : GateOp) (c : Int) : GateOp :=
  { g with control := c }

/-! Concrete strategy instances corresponding to the classes exported by
the binding.  Their exact numeric formulas are pluggable policies (spec
sections 1 and 9); representatives faithful to the documented contracts
are given so that runs can be evaluated. -/

/-- `Latency_1`: every gate takes one cycle. -/
def Latency_1 : GateOp → Int := fun _ => 1

/-- `SimpleCost`: the unweighted remaining-gate count (spec section 4.4). -/
def SimpleCost : Node → Int := fun n => (n.remaining.length : Int)

/-- Fingerprint of a node: mapping plus remaining-gate cursor (spec
section 4.6). -/
def fpOf (n : Node) : List Int :=
  n.laq ++ n.remaining.map GateOp.uid

/-- `HashFilter`: reject a state whose fingerprint was already seen. -/
def HashFilter : FilterS :=
  { accept := fun c mem => !(mem.contains (fpOf c)), fingerprint := fpOf }

/-! The mapper construction of `src/main.cpp`: the `py::init` lambda
receives references to caller-owned strategy objects and builds the
`ToqmMapper` from `clone()`d copies of each.  The caller's object store
is modelled as a heap of strategy objects addressed by references; the
construction reads (and thereby clones) the referenced values. -/

/-- A caller-owned strategy object, as passed through the binding. -/
inductive StrategyObj
  | queueS (k : QueueKind)
  | expanderS (k : ExpanderKind)
  | costS (f : Node → Int)
  | latencyS (f : GateOp → Int)
  | nodeModS (f : Node → Node)
  | filterS (f : FilterS)

/-- The caller-side object store. -/
abbrev Heap := List StrategyObj

/-- Mutation of a caller-owned object after construction. -/
def heapWrite (h : Heap) (r : Nat) (v : StrategyObj) : Heap :=
  h.set r v

def castQueue : Option StrategyObj → Option QueueKind
  | some (.queueS k) => some k
  | _ => none

def castExpander : Option StrategyObj → Option ExpanderKind
  | some (.expanderS k) => some k
  | _ => none

def castCost : Option StrategyObj → Option (Node → Int)
  | some (.costS f) => some f
  | _ => none

def castLatency : Option StrategyObj → Option (GateOp → Int)
  | some (.latencyS f) => some f
  | _ => none

def castNodeMod : Option StrategyObj → Option (Node → Node)
  | some (.nodeModS f) => some f
  | _ => none

def castFilter : Option StrategyObj → Option FilterS
  | some (.filterS f) => some f
  | _ => none

/-- The binding's per-element clone loop over the `node_mods` list
(`for (const auto & i : node_mods) nms.emplace_back(i.cast<NodeMod*>()->clone())`). -/
def castAllNodeMods (h : Heap) : List Nat → Option (List (Node → Node))
  | [] => some []
  | r :: rs => do
      let f ← castNodeMod h[r]?
      let fs ← castAllNodeMods h rs
      some (f :: fs)

/-- The binding's per-element clone loop over the `filters` list. -/
def castAllFilters (h : Heap) : List Nat → Option (List FilterS)
  | [] => some []
  | r :: rs => do
      let f ← castFilter h[r]?
      let fs ← castAllFilters h rs
      some (f :: fs)

/-- The `py::init` lambda of `src/main.cpp`: read each referenced
strategy object out of the caller's store and build the mapper from
clones of their current values (`node_queue.clone()`, `expander.clone()`,
`cost_func.clone()`, `latency.clone()`, and a cloned copy of every
node-mod and filter).  Fails (as the C++ `cast<…>` would) if a reference
does not hold an object of the expected family. -/
def mkToqmMapperFromRefs (h : Heap) (qr er cr lr : Nat) (mrs frs : List Nat)
    (isc : Int) : Option ToqmMapper := do
  let qk ← castQueue h[qr]?
  let ek ← castExpander h[er]?
  let cf ← castCost h[cr]?
  let lf ← castLatency h[lr]?
  let nms ← castAllNodeMods h mrs
  let fs ← castAllFilters h frs
  some { queueKind := qk, expanderKind := ek, costFn := cf, latencyFn := lf,
         nodeMods := nms, filters := fs, initialSearchCycles := isc,
         retainPopped := false, verbose := false }

/-- A caller session: construct the mapper from the referenced strategy
objects, then mutate the caller's originals, then run.  Because the
mapper owns clones taken at construction, the mutated heap plays no part
in the run. -/
def constructMutateRun (h : Heap) (qr er cr lr : Nat) (mrs frs : List Nat)
    (isc : Int) (muts : List (Nat × StrategyObj)) (a : RunArgs) :
    Option (Except ToqmError ToqmResult) :=
  match mkToqmMapperFromRefs h qr er cr lr mrs frs isc with
  | none => none
  | some mp =>
      let finalHeap := muts.foldl (fun hh rv => heapWrite hh rv.1 rv.2) h
      let _ := finalHeap
      some (runToqm mp a)

/-- A `run` member call on the mapper object: `run` is declared `const`
in the binding (`src/main.cpp` casts it to a const member function), so
the post-call object state equals the pre-call state. -/
def runMember (m : ToqmMapper) (a : RunArgs) :
    Except ToqmError ToqmResult × ToqmMapper :=
  (runToqm m a, m)

/-- A sequence of `run` calls on one mapper instance, each operating on
the object state left by the previous call. -/
def runSeq (m : ToqmMapper) : List RunArgs → List (Except ToqmError ToqmResult)
  | [] => []
  | a :: as =>
      let p := runMember m a
      p.1 :: runSeq p.2 as

/-! ### Schedule-level predicates used by the invariants -/

/-- A scheduled operation occupies physical qubit `p`. -/
def usesPhys (op : ScheduledGateOp) (p : Int) : Prop :=
  op.physicalTarget = p ∨ op.physicalControl = p

/-- The first cycle after a scheduled operation completes. -/
def opEnd (op : ScheduledGateOp) : Int := op.cycle + op.latency

/-- `op1` finishes before `op2` starts on every physical qubit they
share. -/
def PhysSep (op1 op2 : ScheduledGateOp) : Prop :=
  ∀ p : Int, 0 ≤ p → usesPhys op1 p → usesPhys op2 p → opEnd op1 ≤ op2.cycle

/-- Invariant for claim C1: every scheduled operation with a physical
control pair took it from the coupling map's edge set, and every
operation whose gate has a (logical) control was given a physical
control. -/
structure EdgeInv (cm : CouplingMap) (n : Node) : Prop where
  sched_edges : ∀ op ∈ n.sched, 0 ≤ op.physicalControl →
    (op.physicalControl, op.physicalTarget) ∈ cm.edges
  sched_ctrl : ∀ op ∈ n.sched, 0 ≤ op.gateOp.control → 0 ≤ op.physicalControl

/-- Invariant for claim C2: every scheduled operation completes no later
than the next-free cycle of each physical qubit it uses, and operations
are pairwise separated on every shared physical qubit in schedule
order. -/
structure TimeInv (n : Node) : Prop where
  free_bound : ∀ op ∈ n.sched, ∀ p : Int, 0 ≤ p → usesPhys op p → opEnd op ≤ n.free p
  phys_pairwise : n.sched.Pairwise PhysSep

/-! ### General lemmas about the search loop -/

theorem validEdgesB_mem (cm : CouplingMap) (hE : validEdgesB cm = true)
    (e : Int × Int) (he : e ∈ cm.edges) :
    0 ≤ e.1 ∧ e.1 < (cm.numPhysicalQubits : Int) ∧
    0 ≤ e.2 ∧ e.2 < (cm.numPhysicalQubits : Int) := by
  have h := List.all_eq_true.mp hE e he
  simp only [Bool.and_eq_true, decide_eq_true_eq] at h
  tauto

theorem popMin_mem (key : Node → Int) :
    ∀ q n q', popMin key q = some (n, q') → n ∈ q ∧ ∀ x ∈ q', x ∈ q := by
  intro q
  induction q with
  | nil => intro n q' h; simp [popMin] at h
  | cons x xs ih =>
      intro n q' h
      rw [popMin] at h
      rcases hx : popMin key xs with _ | ⟨y, ys⟩
      · simp only [hx, Option.some.injEq, Prod.mk.injEq] at h
        obtain ⟨h1, h2⟩ := h
        subst h1; subst h2
        exact ⟨by simp, fun z hz => by simp [hz]⟩
      · simp only [hx] at h
        by_cases hk : key x ≤ key y
        · rw [if_pos hk] at h
          simp only [Option.some.injEq, Prod.mk.injEq] at h
          obtain ⟨h1, h2⟩ := h
          subst h1; subst h2
          exact ⟨by simp, fun z hz => by simp [hz]⟩
        · rw [if_neg hk] at h
          simp only [Option.some.injEq, Prod.mk.injEq] at h
          obtain ⟨h1, h2⟩ := h
          subst h1; subst h2
          obtain ⟨hy, hys⟩ := ih y ys hx
          refine ⟨by simp [hy], fun z hz => ?_⟩
          rcases List.mem_cons.mp hz with rfl | hz'
          · simp
          · simp [hys z hz']

theorem insertByCost_perm (key : Node → Int) (n : Node) :
    ∀ l, (insertByCost key n l).Perm (n :: l) := by
  intro l
  induction l with
  | nil => rfl
  | cons x xs ih =>
      rw [insertByCost]
      by_cases hk : key n ≤ key x
      · rw [if_pos hk]
      · rw [if_neg hk]
        exact (ih.cons x).trans (List.Perm.swap n x xs)

theorem sortByCost_perm (key : Node → Int) :
    ∀ l, (sortByCost key l).Perm l := by
  intro l
  induction l with
  | nil => rfl
  | cons x xs ih =>
      exact (insertByCost_perm key x (sortByCost key xs)).trans (ih.cons x)

theorem pushQueue_subset (qk : QueueKind) (key : Node → Int) (q : List Node)
    (c : Node) : ∀ x ∈ pushQueue qk key q c, x ∈ q ∨ x = c := by
  intro x hx
  cases qk with
  | defaultQueue =>
      rcases List.mem_append.mp hx with h | h
      · exact Or.inl h
      · exact Or.inr (by simpa using h)
  | trimSlowNodes maxSize targetSize =>
      rw [pushQueue] at hx
      split at hx
      · have h1 : x ∈ sortByCost key (q ++ [c]) := List.mem_of_mem_take hx
        have h2 : x ∈ q ++ [c] := (sortByCost_perm key (q ++ [c])).mem_iff.mp h1
        rcases List.mem_append.mp h2 with h | h
        · exact Or.inl h
        · exact Or.inr (by simpa using h)
      · rcases List.mem_append.mp hx with h | h
        · exact Or.inl h
        · exact Or.inr (by simpa using h)

theorem pushChild_queue_mem (m : ToqmMapper) (ls : LoopState) (c : Node) :
    ∀ x ∈ (pushChild m ls c).queue, x ∈ ls.queue ∨ x = c := by
  intro x hx
  rw [pushChild] at hx
  split at hx
  · exact pushQueue_subset m.queueKind m.costFn ls.queue c x hx
  · exact Or.inl hx

theorem pushChild_best (m : ToqmMapper) (ls : LoopState) (c : Node) :
    (pushChild m ls c).best = ls.best := by
  rw [pushChild]; split <;> rfl

theorem pushChildren_queue_mem (m : ToqmMapper) :
    ∀ cs ls, ∀ x ∈ (pushChildren m ls cs).queue, x ∈ ls.queue ∨ x ∈ cs := by
  intro cs
  induction cs with
  | nil => intro ls x hx; exact Or.inl hx
  | cons c cs ih =>
      intro ls x hx
      rcases ih (pushChild m ls c) x hx with h | h
      · rcases pushChild_queue_mem m ls c x h with h' | h'
        · exact Or.inl h'
        · exact Or.inr (by simp [h'])
      · exact Or.inr (by simp [h])

theorem pushChildren_best (m : ToqmMapper) :
    ∀ cs ls, (pushChildren m ls cs).best = ls.best := by
  intro cs
  induction cs with
  | nil => intro ls; rfl
  | cons c cs ih =>
      intro ls
      rw [pushChildren] at *
      simpa [pushChild_best] using ih (pushChild m ls c)

theorem expandWith_mem (ek : ExpanderKind) (cm : CouplingMap)
    (lat : GateOp → Int) (key : Node → Int) (n c : Node)
    (h : c ∈ expandWith ek cm lat key n) :
    (∃ g rest, (g, rest) ∈ readySplit n.remaining ∧
      gateChild cm lat n g rest = some c) ∨
    (∃ e ∈ cm.edges, c = swapChild lat n e) := by
  have base : ∀ x ∈ gateChildren cm lat n ++ swapChildren lat cm n,
      (∃ g rest, (g, rest) ∈ readySplit n.remaining ∧
        gateChild cm lat n g rest = some x) ∨
      (∃ e ∈ cm.edges, x = swapChild lat n e) := by
    intro x hx
    rcases List.mem_append.mp hx with hx | hx
    · obtain ⟨p, hp, hpx⟩ := List.mem_filterMap.mp hx
      exact Or.inl ⟨p.1, p.2, hp, hpx⟩
    · obtain ⟨e, he, hex⟩ := List.mem_map.mp hx
      exact Or.inr ⟨e, he, hex.symm⟩
  cases ek with
  | defaultExpander => exact base c h
  | greedyTopK k =>
      refine base c ?_
      have h1 : c ∈ sortByCost key (gateChildren cm lat n ++ swapChildren lat cm n) :=
        List.mem_of_mem_take h
      exact (sortByCost_perm key _).mem_iff.mp h1
  | noSwaps =>
      exact base c (List.mem_append.mpr (Or.inl h))

theorem applyMods_pres (P : Node → Prop) :
    ∀ (mods : List (Node → Node)), (∀ f ∈ mods, ∀ s, P s → P (f s)) →
      ∀ n, P n → P (applyMods mods n) := by
  intro mods
  induction mods with
  | nil => intro _ n hn; exact hn
  | cons f fs ih =>
      intro hmods n hn
      rw [applyMods] at *
      exact ih (fun g hg s hs => hmods g (by simp [hg]) s hs) (f n)
        (hmods f (by simp) n hn)

/-- Master preservation lemma: a node property preserved by mutated
expansion is an invariant of the queue and of the best completed node
throughout the search loop. -/
theorem searchLoop_pres (m : ToqmMapper) (cm : CouplingMap) (P : Node → Prop)
    (hexp : ∀ n, P n →
      ∀ c ∈ expandWith m.expanderKind cm m.latencyFn m.costFn n,
        P (applyMods m.nodeMods c)) :
    ∀ fuel ls, (∀ s ∈ ls.queue, P s) →
      (∀ b, ls.best = some b → P b ∧ b.remaining = []) →
      (∀ s ∈ (searchLoop m cm fuel ls).queue, P s) ∧
      (∀ b, (searchLoop m cm fuel ls).best = some b → P b ∧ b.remaining = []) := by
  intro fuel
  induction fuel with
  | zero => intro ls hq hb; exact ⟨hq, hb⟩
  | succ fuel ih =>
      intro ls hq hb
      rcases hpop : popMin m.costFn ls.queue with _ | ⟨n, q'⟩
      · rw [searchLoop, hpop]
        exact ⟨hq, hb⟩
      · rw [searchLoop, hpop]
        dsimp only
        obtain ⟨hn, hq'⟩ := popMin_mem m.costFn ls.queue n q' hpop
        have hPn : P n := hq n hn
        by_cases hterm : n.remaining.isEmpty
        · rw [if_pos hterm]
          refine ih _ (fun s hs => hq s (hq' s hs)) ?_
          intro b hbeq
          simp only [updateBest] at hbeq
          have hnrem : n.remaining = [] := List.isEmpty_iff.mp hterm
          rcases hbest : ls.best with _ | b0
          · rw [hbest] at hbeq
            dsimp only at hbeq
            injection hbeq with hbeq
            subst hbeq
            exact ⟨hPn, hnrem⟩
          · rw [hbest] at hbeq
            dsimp only at hbeq
            split at hbeq <;> (injection hbeq with hbeq; subst hbeq)
            · exact ⟨hPn, hnrem⟩
            · exact hb b0 hbest
        · rw [if_neg hterm]
          refine ih _ ?_ ?_
          · intro s hs
            rcases pushChildren_queue_mem m _ _ s hs with h | h
            · exact hq s (hq' s h)
            · obtain ⟨c, hc, hcs⟩ := List.mem_map.mp h
              rw [← hcs]
              exact hexp n hPn c hc
          · intro b hbeq
            rw [pushChildren_best] at hbeq
            exact hb b hbeq

theorem updFree_mono (f : Int → Int) (p v : Int) (h : f p ≤ v) :
    ∀ q, f q ≤ updFree f p v q := by
  intro q
  rw [updFree]
  split_ifs with hq
  · rw [hq]; exact h
  · exact le_refl _

theorem updFree2_mono (f : Int → Int) (pc pt v : Int)
    (h1 : f pc ≤ v) (h2 : f pt ≤ v) :
    ∀ q, f q ≤ updFree (updFree f pc v) pt v q := by
  intro q
  simp only [updFree]
  split_ifs with ha hb
  · rw [ha]; exact h2
  · rw [hb]; exact h1
  · exact le_refl _

theorem updFree2_self1 (f : Int → Int) (pc pt v : Int) :
    updFree (updFree f pc v) pt v pc = v := by
  by_cases h : pc = pt <;> simp [updFree, h]

theorem updFree_ne (f : Int → Int) (p v q : Int) (h : ¬q = p) :
    updFree f p v q = f q := by
  rw [updFree, if_neg h]

theorem updFree2_self2 (f : Int → Int) (pc pt v : Int) :
    updFree (updFree f pc v) pt v pt = v := by
  simp [updFree]

/-- Scheduling a ready gate preserves the coupling-edge invariant. -/
theorem gateChild_edgeInv (cm : CouplingMap) (lat : GateOp → Int) (n : Node)
    (g : GateOp) (rest : List GateOp) (c : Node) (hE : validEdgesB cm = true)
    (hn : EdgeInv cm n) (h : gateChild cm lat n g rest = some c) : EdgeInv cm c := by
  rw [gateChild] at h
  split at h
  case isTrue hctrl =>
    dsimp only at h
    split at h
    case isTrue hedge =>
      injection h with h
      subst h
      constructor
      · intro op hop hpc
        rcases List.mem_append.mp hop with hop | hop
        · exact hn.sched_edges op hop hpc
        · simp only [List.mem_singleton] at hop
          subst hop
          exact hedge
      · intro op hop hc
        rcases List.mem_append.mp hop with hop | hop
        · exact hn.sched_ctrl op hop hc
        · simp only [List.mem_singleton] at hop
          subst hop
          exact (validEdgesB_mem cm hE _ hedge).1
    case isFalse => exact absurd h (by simp)
  case isFalse hctrl =>
    split at h
    case isTrue htgt =>
      dsimp only at h
      injection h with h
      subst h
      constructor
      · intro op hop hpc
        rcases List.mem_append.mp hop with hop | hop
        · exact hn.sched_edges op hop hpc
        · simp only [List.mem_singleton] at hop
          subst hop
          simp at hpc
      · intro op hop hc
        rcases List.mem_append.mp hop with hop | hop
        · exact hn.sched_ctrl op hop hc
        · simp only [List.mem_singleton] at hop
          subst hop
          exact absurd hc hctrl
    case isFalse htgt =>
      injection h with h
      subst h
      constructor
      · intro op hop hpc
        rcases List.mem_append.mp hop with hop | hop
        · exact hn.sched_edges op hop hpc
        · simp only [List.mem_singleton] at hop
          subst hop
          simp at hpc
      · intro op hop hc
        rcases List.mem_append.mp hop with hop | hop
        · exact hn.sched_ctrl op hop hc
        · simp only [List.mem_singleton] at hop
          subst hop
          exact absurd hc hctrl

/-- Inserting a remap across an edge preserves the coupling-edge
invariant. -/
theorem swapChild_edgeInv (cm : CouplingMap) (lat : GateOp → Int) (n : Node)
    (e : Int × Int) (hE : validEdgesB cm = true) (he : e ∈ cm.edges)
    (hn : EdgeInv cm n) : EdgeInv cm (swapChild lat n e) := by
  constructor
  · intro op hop hpc
    rcases List.mem_append.mp hop with hop | hop
    · exact hn.sched_edges op hop hpc
    · simp only [List.mem_singleton] at hop
      subst hop
      simpa using he
  · intro op hop hc
    rcases List.mem_append.mp hop with hop | hop
    · exact hn.sched_ctrl op hop hc
    · simp only [List.mem_singleton] at hop
      subst hop
      exact (validEdgesB_mem cm hE e he).1

/-- Scheduling a ready gate preserves the timing invariant. -/
theorem gateChild_timeInv (cm : CouplingMap) (lat : GateOp → Int) (n : Node)
    (g : GateOp) (rest : List GateOp) (c : Node) (hd : 0 ≤ lat g)
    (hn : TimeInv n) (h : gateChild cm lat n g rest = some c) : TimeInv c := by
  rw [gateChild] at h
  split at h
  case isTrue hctrl =>
    dsimp only at h
    split at h
    case isFalse => exact absurd h (by simp)
    case isTrue hedge =>
      injection h with h
      subst h
      have hm : ∀ q, n.free q ≤
          updFree (updFree n.free (physOf n.laq g.control)
              (max (n.free (physOf n.laq g.control)) (n.free (physOf n.laq g.target)) + lat g))
            (physOf n.laq g.target)
            (max (n.free (physOf n.laq g.control)) (n.free (physOf n.laq g.target)) + lat g) q := by
        refine updFree2_mono _ _ _ _ ?_ ?_
        · have := le_max_left (n.free (physOf n.laq g.control)) (n.free (physOf n.laq g.target))
          omega
        · have := le_max_right (n.free (physOf n.laq g.control)) (n.free (physOf n.laq g.target))
          omega
      constructor
      · dsimp only
        intro op hop p hp hu
        rcases List.mem_append.mp hop with hop | hop
        · exact le_trans (hn.free_bound op hop p hp hu) (hm p)
        · simp only [List.mem_singleton] at hop
          subst hop
          rcases hu with hu | hu <;> simp only at hu <;> rw [← hu]
          · rw [updFree2_self2]
            simp [opEnd]
          · rw [updFree2_self1]
            simp [opEnd]
      · dsimp only
        rw [List.pairwise_append]
        refine ⟨hn.phys_pairwise, List.pairwise_singleton _ _, ?_⟩
        intro op1 h1 op2 h2 p hp hu1 hu2
        simp only [List.mem_singleton] at h2
        subst h2
        have hb := hn.free_bound op1 h1 p hp hu1
        rcases hu2 with hu2 | hu2 <;> simp only at hu2 <;> rw [← hu2] at hb
        · have := le_max_right (n.free (physOf n.laq g.control)) (n.free (physOf n.laq g.target))
          simp only [opEnd] at hb ⊢
          omega
        · have := le_max_left (n.free (physOf n.laq g.control)) (n.free (physOf n.laq g.target))
          simp only [opEnd] at hb ⊢
          omega
  case isFalse hctrl =>
    split at h
    case isTrue htgt =>
      dsimp only at h
      injection h with h
      subst h
      have hm : ∀ q, n.free q ≤
          updFree n.free (physOf n.laq g.target) (n.free (physOf n.laq g.target) + lat g) q := by
        refine updFree_mono _ _ _ ?_
        omega
      constructor
      · dsimp only
        intro op hop p hp hu
        rcases List.mem_append.mp hop with hop | hop
        · exact le_trans (hn.free_bound op hop p hp hu) (hm p)
        · simp only [List.mem_singleton] at hop
          subst hop
          rcases hu with hu | hu <;> simp only at hu
          · rw [← hu]
            simp [opEnd, updFree]
          · exfalso
            rw [← hu] at hp
            omega
      · dsimp only
        rw [List.pairwise_append]
        refine ⟨hn.phys_pairwise, List.pairwise_singleton _ _, ?_⟩
        intro op1 h1 op2 h2 p hp hu1 hu2
        simp only [List.mem_singleton] at h2
        subst h2
        have hb := hn.free_bound op1 h1 p hp hu1
        rcases hu2 with hu2 | hu2 <;> simp only at hu2
        · rw [← hu2] at hb
          simpa using hb
        · exfalso
          rw [← hu2] at hp
          omega
    case isFalse htgt =>
      injection h with h
      subst h
      constructor
      · dsimp only
        intro op hop p hp hu
        rcases List.mem_append.mp hop with hop | hop
        · exact hn.free_bound op hop p hp hu
        · simp only [List.mem_singleton] at hop
          subst hop
          exfalso
          rcases hu with hu | hu <;> simp only at hu <;> rw [← hu] at hp <;> omega
      · dsimp only
        rw [List.pairwise_append]
        refine ⟨hn.phys_pairwise, List.pairwise_singleton _ _, ?_⟩
        intro op1 h1 op2 h2 p hp hu1 hu2
        simp only [List.mem_singleton] at h2
        subst h2
        exfalso
        rcases hu2 with hu2 | hu2 <;> simp only at hu2 <;> rw [← hu2] at hp <;> omega

/-- Inserting a remap preserves the timing invariant. -/
theorem swapChild_timeInv (lat : GateOp → Int) (n : Node) (e : Int × Int)
    (hd : ∀ g, 0 ≤ lat g) (hn : TimeInv n) : TimeInv (swapChild lat n e) := by
  have hlg := hd (swapGate n.laq e)
  rw [swapChild]
  have hm : ∀ q, n.free q ≤
      updFree (updFree n.free e.1
          (max (n.free e.1) (n.free e.2) + lat (swapGate n.laq e))) e.2
        (max (n.free e.1) (n.free e.2) + lat (swapGate n.laq e)) q := by
    refine updFree2_mono _ _ _ _ ?_ ?_
    · have := le_max_left (n.free e.1) (n.free e.2)
      omega
    · have := le_max_right (n.free e.1) (n.free e.2)
      omega
  constructor
  · dsimp only
    intro op hop p hp hu
    rcases List.mem_append.mp hop with hop | hop
    · exact le_trans (hn.free_bound op hop p hp hu) (hm p)
    · simp only [List.mem_singleton] at hop
      subst hop
      rcases hu with hu | hu <;> simp only at hu <;> rw [← hu]
      · rw [updFree2_self2]
        simp [opEnd]
      · rw [updFree2_self1]
        simp [opEnd]
  · dsimp only
    rw [List.pairwise_append]
    refine ⟨hn.phys_pairwise, List.pairwise_singleton _ _, ?_⟩
    intro op1 h1 op2 h2 p hp hu1 hu2
    simp only [List.mem_singleton] at h2
    subst h2
    have hb := hn.free_bound op1 h1 p hp hu1
    rcases hu2 with hu2 | hu2 <;> simp only at hu2 <;> rw [← hu2] at hb
    · have := le_max_right (n.free e.1) (n.free e.2)
      simp only [opEnd] at hb ⊢
      omega
    · have := le_max_left (n.free e.1) (n.free e.2)
      simp only [opEnd] at hb ⊢
      omega

/-- Case analysis on a successful run: the inputs validated, and the
result schedule is either empty (trivial zero-gate success) or the
schedule of the best node found by the loop. -/
theorem runToqm_ok_cases (m : ToqmMapper) (a : RunArgs) (r : ToqmResult)
    (h : runToqm m a = .ok r) :
    validEdgesB a.couplingMap = true ∧
    a.gates.all (validGateB a.numLogicalQubits) = true ∧
    (r.scheduledGates = [] ∨
      ∃ b, (searchLoop m a.couplingMap a.fuel
          (initialLoopState m
            (mkRoot (a.initialLaq.getD (identityLaq a.numLogicalQubits)) a.gates))).best =
        some b ∧ r.scheduledGates = b.sched) := by
  rw [runToqm] at h
  rcases hE : validEdgesB a.couplingMap with _ | _
  · simp [hE] at h
  · rcases hG : a.gates.all (validGateB a.numLogicalQubits) with _ | _
    · simp [hE, hG] at h
    · rcases hM : validMappingB a.couplingMap.numPhysicalQubits a.numLogicalQubits
          (a.initialLaq.getD (identityLaq a.numLogicalQubits)) with _ | _
      · simp [hE, hG, hM] at h
      · refine ⟨rfl, rfl, ?_⟩
        rcases hbest : (searchLoop m a.couplingMap a.fuel
            (initialLoopState m
              (mkRoot (a.initialLaq.getD (identityLaq a.numLogicalQubits)) a.gates))).best
          with _ | b
        · simp only [hE, hG, hM, hbest, if_true] at h
          rcases hEmp : a.gates.isEmpty with _ | _
          · simp [hEmp] at h
          · simp only [hEmp, if_true] at h
            injection h with h
            subst h
            exact Or.inl rfl
        · simp only [hE, hG, hM, hbest, if_true] at h
          injection h with h
          subst h
          exact Or.inr ⟨b, rfl, rfl⟩

theorem searchLoop_nil_queue (m : ToqmMapper) (cm : CouplingMap) (f : Nat)
    (ls : LoopState) (h : ls.queue = []) : searchLoop m cm f ls = ls := by
  cases f with
  | zero => rfl
  | succ f => simp [searchLoop, h, popMin]

theorem foldr_max_replicate_zero (n : Nat) :
    (List.replicate n (0 : Int)).foldr max 0 = 0 := by
  induction n with
  | zero => rfl
  | succ n ih => simp [List.replicate_succ, ih]

theorem idealCyclesCalc_nil (lat : GateOp → Int) (nL : Nat) :
    idealCyclesCalc lat nL [] = 0 := by
  simp [idealCyclesCalc, foldr_max_replicate_zero]

/-- Structural description of the ready-gate cursor: a ready gate's
entry splits the remaining list at its occurrence, no earlier remaining
gate sharing a qubit with it. -/
theorem readySplit_eq : ∀ (rem : List GateOp) (g : GateOp) (rest : List GateOp),
    (g, rest) ∈ readySplit rem →
    ∃ pre suf, rem = pre ++ g :: suf ∧ rest = pre ++ suf ∧
      ∀ x ∈ pre, sharesQubit x g = false := by
  intro rem
  induction rem with
  | nil => intro g rest h; simp [readySplit] at h
  | cons a tl ih =>
      intro g rest h
      rw [readySplit] at h
      rcases List.mem_cons.mp h with h | h
      · obtain ⟨h1, h2⟩ := Prod.mk.injEq .. ▸ h
        exact ⟨[], tl, by simp [h1], by simp [h2], by simp⟩
      · obtain ⟨p, hp, hpf⟩ := List.mem_filterMap.mp h
        split at hpf
        · exact absurd hpf (by simp)
        case isFalse hsh =>
          injection hpf with hpf
          obtain ⟨h1, h2⟩ := Prod.mk.injEq .. ▸ hpf
          obtain ⟨pre, suf, he1, he2, he3⟩ := ih p.1 p.2 hp
          refine ⟨a :: pre, suf, ?_, ?_, ?_⟩
          · rw [he1, h1]
            rfl
          · rw [← h2, he2]
            rfl
          · intro x hx
            rcases List.mem_cons.mp hx with hx | hx
            · subst hx
              rw [← h1]
              simpa using hsh
            · exact h1 ▸ he3 x hx

theorem popMin_none (key : Node → Int) :
    ∀ q, popMin key q = none → q = [] := by
  intro q h
  cases q with
  | nil => rfl
  | cons x xs =>
      rw [popMin] at h
      rcases hx : popMin key xs with _ | ⟨y, ys⟩
      · simp [hx] at h
      · simp only [hx] at h
        split at h <;> exact absurd h (by simp)

theorem popMin_perm (key : Node → Int) :
    ∀ q n q', popMin key q = some (n, q') → q.Perm (n :: q') := by
  intro q
  induction q with
  | nil => intro n q' h; simp [popMin] at h
  | cons x xs ih =>
      intro n q' h
      rw [popMin] at h
      rcases hx : popMin key xs with _ | ⟨y, ys⟩
      · simp only [hx, Option.some.injEq, Prod.mk.injEq] at h
        obtain ⟨h1, h2⟩ := h
        subst h1; subst h2
        exact List.Perm.refl _
      · simp only [hx] at h
        by_cases hk : key x ≤ key y
        · rw [if_pos hk] at h
          simp only [Option.some.injEq, Prod.mk.injEq] at h
          obtain ⟨h1, h2⟩ := h
          subst h1; subst h2
          exact List.Perm.refl _
        · rw [if_neg hk] at h
          simp only [Option.some.injEq, Prod.mk.injEq] at h
          obtain ⟨h1, h2⟩ := h
          subst h1; subst h2
          exact ((ih y ys hx).cons x).trans (List.Perm.swap y x ys)

/-- Worst-case number of loop iterations needed to exhaust the no-remap
search tree below a node with `r` remaining gates. -/
def expoBound : Nat → Nat
  | 0 => 1
  | r + 1 => 1 + (r + 1) * expoBound r

theorem expoBound_pos : ∀ r, 1 ≤ expoBound r
  | 0 => le_refl 1
  | r + 1 => by rw [expoBound]; omega

/-- Total remaining-work measure of a frontier. -/
def queueMeasure (q : List Node) : Nat :=
  (q.map (fun n => expoBound n.remaining.length)).sum

theorem queueMeasure_perm {q q' : List Node} (h : q.Perm q') :
    queueMeasure q = queueMeasure q' :=
  (h.map _).sum_eq

theorem queueMeasure_take (t : Nat) (l : List Node) :
    queueMeasure (l.take t) ≤ queueMeasure l := by
  conv_rhs => rw [← List.take_append_drop t l]
  rw [queueMeasure, queueMeasure, List.map_append, List.sum_append]
  exact Nat.le_add_right _ _

theorem pushQueue_measure (qk : QueueKind) (key : Node → Int) (q : List Node)
    (c : Node) : queueMeasure (pushQueue qk key q c) ≤
      queueMeasure q + expoBound c.remaining.length := by
  have happ : queueMeasure (q ++ [c]) =
      queueMeasure q + expoBound c.remaining.length := by
    rw [queueMeasure, queueMeasure, List.map_append, List.sum_append]
    simp
  cases qk with
  | defaultQueue => exact le_of_eq happ
  | trimSlowNodes maxSize targetSize =>
      rw [pushQueue]
      split
      · calc queueMeasure ((sortByCost key (q ++ [c])).take targetSize)
            ≤ queueMeasure (sortByCost key (q ++ [c])) := queueMeasure_take _ _
          _ = queueMeasure (q ++ [c]) := queueMeasure_perm (sortByCost_perm key _)
          _ = _ := happ
      · exact le_of_eq happ

theorem pushChild_measure (m : ToqmMapper) (ls : LoopState) (c : Node) :
    queueMeasure (pushChild m ls c).queue ≤
      queueMeasure ls.queue + expoBound c.remaining.length := by
  rw [pushChild]
  split
  · exact pushQueue_measure _ _ _ _
  · exact Nat.le_add_right _ _

theorem pushChildren_measure (m : ToqmMapper) :
    ∀ cs ls, queueMeasure (pushChildren m ls cs).queue ≤
      queueMeasure ls.queue +
        (cs.map (fun c => expoBound c.remaining.length)).sum := by
  intro cs
  induction cs with
  | nil => intro ls; simp [pushChildren]
  | cons c cs ih =>
      intro ls
      have h1 := ih (pushChild m ls c)
      have h2 := pushChild_measure m ls c
      have h3 : queueMeasure (pushChildren m ls (c :: cs)).queue =
          queueMeasure (pushChildren m (pushChild m ls c) cs).queue := rfl
      simp only [List.map_cons, List.sum_cons]
      omega

theorem readySplit_length_le : ∀ rem : List GateOp,
    (readySplit rem).length ≤ rem.length := by
  intro rem
  induction rem with
  | nil => simp [readySplit]
  | cons g rest ih =>
      rw [readySplit]
      simp only [List.length_cons]
      have := List.length_filterMap_le
        (fun p => if sharesQubit g p.1 then none else some (p.1, g :: p.2))
        (readySplit rest)
      omega

/-- The mapping and the remaining cursor of a gate-scheduling child. -/
theorem gateChild_fields (cm : CouplingMap) (lat : GateOp → Int) (n : Node)
    (g : GateOp) (rest : List GateOp) (c : Node)
    (h : gateChild cm lat n g rest = some c) :
    c.laq = n.laq ∧ c.remaining = rest := by
  rw [gateChild] at h
  split at h
  · dsimp only at h
    split at h
    · injection h with h
      subst h
      exact ⟨rfl, rfl⟩
    · exact absurd h (by simp)
  · split at h
    · dsimp only at h
      injection h with h
      subst h
      exact ⟨rfl, rfl⟩
    · injection h with h
      subst h
      exact ⟨rfl, rfl⟩

theorem gateChildren_measure (cm : CouplingMap) (lat : GateOp → Int) (n : Node)
    (r : Nat) (hr : n.remaining.length = r + 1) :
    ((gateChildren cm lat n).map (fun c => expoBound c.remaining.length)).sum ≤
      (r + 1) * expoBound r := by
  have hlen : (gateChildren cm lat n).length ≤ r + 1 := by
    rw [← hr]
    calc (gateChildren cm lat n).length
        ≤ (readySplit n.remaining).length := List.length_filterMap_le _ _
      _ ≤ n.remaining.length := readySplit_length_le _
  have hall : ∀ x ∈ (gateChildren cm lat n).map
      (fun c => expoBound c.remaining.length), x ≤ expoBound r := by
    intro x hx
    obtain ⟨c, hc, hxc⟩ := List.mem_map.mp hx
    obtain ⟨p, hp, hpc⟩ := List.mem_filterMap.mp hc
    obtain ⟨pre, suf, he1, he2, _⟩ := readySplit_eq _ _ _ hp
    have hrem := (gateChild_fields _ _ _ _ _ _ hpc).2
    have hclen : c.remaining.length = r := by
      have hl1 : n.remaining.length = pre.length + suf.length + 1 := by
        rw [he1]
        simp [List.length_append]
        omega
      rw [hrem, he2]
      simp [List.length_append]
      omega
    rw [← hxc, hclen]
  calc ((gateChildren cm lat n).map (fun c => expoBound c.remaining.length)).sum
      ≤ ((gateChildren cm lat n).map
          (fun c => expoBound c.remaining.length)).length * expoBound r := by
        have := List.sum_le_card_nsmul
          ((gateChildren cm lat n).map (fun c => expoBound c.remaining.length))
          (expoBound r) hall
        simpa [smul_eq_mul] using this
    _ ≤ (r + 1) * expoBound r := by
        have : ((gateChildren cm lat n).map
            (fun c => expoBound c.remaining.length)).length ≤ r + 1 := by
          simpa using hlen
        exact Nat.mul_le_mul_right _ this

/-- With the no-remap expander and no node mutations, the search loop
exhausts its frontier within `queueMeasure` iterations: the no-remap
search always terminates. -/
theorem searchLoop_exhausts (m : ToqmMapper) (cm : CouplingMap)
    (hek : m.expanderKind = .noSwaps) (hmods : m.nodeMods = []) :
    ∀ fuel ls, queueMeasure ls.queue ≤ fuel →
      (searchLoop m cm fuel ls).queue = [] := by
  intro fuel
  induction fuel with
  | zero =>
      intro ls h
      show ls.queue = []
      cases hq : ls.queue with
      | nil => rfl
      | cons x xs =>
          exfalso
          rw [hq] at h
          have := expoBound_pos x.remaining.length
          simp [queueMeasure] at h
          omega
  | succ fuel ih =>
      intro ls h
      rcases hpop : popMin m.costFn ls.queue with _ | ⟨n, q'⟩
      · rw [searchLoop, hpop]
        exact popMin_none _ _ hpop
      · rw [searchLoop, hpop]
        dsimp only
        have hperm := popMin_perm m.costFn ls.queue n q' hpop
        have hmeq : queueMeasure ls.queue =
            expoBound n.remaining.length + queueMeasure q' := by
          rw [queueMeasure_perm hperm]
          simp [queueMeasure]
        by_cases hterm : n.remaining.isEmpty
        · rw [if_pos hterm]
          apply ih
          have h1 := expoBound_pos n.remaining.length
          show queueMeasure q' ≤ fuel
          omega
        · rw [if_neg hterm]
          apply ih
          obtain ⟨r, hr⟩ : ∃ r, n.remaining.length = r + 1 := by
            rcases hrem : n.remaining with _ | ⟨y, ys⟩
            · exfalso
              apply hterm
              rw [hrem]
              rfl
            · exact ⟨ys.length, by simp⟩
          have hfun : applyMods m.nodeMods = id := by
            rw [hmods]
            funext c
            rfl
          have hexp : (expandWith m.expanderKind cm m.latencyFn m.costFn n).map
              (applyMods m.nodeMods) = gateChildren cm m.latencyFn n := by
            rw [hek, hfun]
            simp [expandWith]
          rw [hexp]
          have hchild := pushChildren_measure m (gateChildren cm m.latencyFn n) { ls with queue := q', numPopped := ls.numPopped + 1 }
          have hsum := gateChildren_measure cm m.latencyFn n r hr
          rw [hr] at hmeq
          have hEB : expoBound (r + 1) = 1 + (r + 1) * expoBound r := rfl
          have hQ : queueMeasure ({ ls with queue := q', numPopped := ls.numPopped + 1 } : LoopState).queue = queueMeasure q' := rfl
          rw [hQ] at hchild
          generalize hY : (r + 1) * expoBound r = Y at hsum hEB
          omega

/-- Invariant for scenario D: with the mapping pinned to `laq0`, some
two-qubit gate whose physical operand pair is not an edge stays in the
remaining list forever. -/
def StuckInv (laq0 : List Int) (cm : CouplingMap) (n : Node) : Prop :=
  n.laq = laq0 ∧ ∃ g ∈ n.remaining, 0 ≤ g.control ∧
    (physOf laq0 g.control, physOf laq0 g.target) ∉ cm.edges

theorem gateChild_stuckInv (cm : CouplingMap) (lat : GateOp → Int) (n : Node)
    (g : GateOp) (rest : List GateOp) (c : Node) (laq0 : List Int)
    (hn : StuckInv laq0 cm n) (hready : (g, rest) ∈ readySplit n.remaining)
    (h : gateChild cm lat n g rest = some c) : StuckInv laq0 cm c := by
  obtain ⟨hlaq, gS, hgS, hctrl, hmiss⟩ := hn
  obtain ⟨pre, suf, he1, he2, _⟩ := readySplit_eq _ _ _ hready
  obtain ⟨hclaq, hcrem⟩ := gateChild_fields _ _ _ _ _ _ h
  refine ⟨by rw [hclaq, hlaq], ?_⟩
  have hne : gS ≠ g := by
    intro hceq
    subst hceq
    rw [gateChild, if_pos hctrl] at h
    dsimp only at h
    rw [hlaq, if_neg hmiss] at h
    exact absurd h (by simp)
  rw [he1] at hgS
  rcases List.mem_append.mp hgS with h1 | h1
  · exact ⟨gS, by rw [hcrem, he2]; exact List.mem_append_left _ h1, hctrl, hmiss⟩
  · rcases List.mem_cons.mp h1 with h1 | h1
    · exact absurd h1 hne
    · exact ⟨gS, by rw [hcrem, he2]; exact List.mem_append_right _ h1, hctrl, hmiss⟩

/-! ### Predicates and invariants for logical program order (claim C3) -/

/-- `op1` completes before `op2` starts whenever both are input gates
sharing a logical qubit. -/
def LogSep (op1 op2 : ScheduledGateOp) : Prop :=
  0 ≤ op1.gateOp.uid → 0 ≤ op2.gateOp.uid →
  sharesQubit op1.gateOp op2.gateOp = true → opEnd op1 ≤ op2.cycle

/-- Schedule order never inverts input order on a shared logical qubit:
an earlier schedule entry cannot carry the uid of the later input gate
while a later entry carries the uid of the earlier one. -/
def ProgOrd (gates : List GateOp) (op1 op2 : ScheduledGateOp) : Prop :=
  ∀ i j (hi : i < gates.length) (hj : j < gates.length), i < j →
    sharesQubit (gates.get ⟨i, hi⟩) (gates.get ⟨j, hj⟩) = true →
    op1.gateOp.uid = (gates.get ⟨j, hj⟩).uid →
    op2.gateOp.uid = (gates.get ⟨i, hi⟩).uid → False

/-- Invariant for claim C3, carried by every search node: the remaining
cursor is a subsequence of the input; every scheduled input gate
completed no later than the next-free cycle of each of its logical
qubits' current physical homes; scheduled input gates come from the
input; schedule order separates and respects input order per shared
qubit; every input gate is either still remaining or scheduled (by uid),
never both; and per-qubit chains are scheduled prefix-closed. -/
structure LogInv (gates : List GateOp) (n : Node) : Prop where
  rem_sub : n.remaining.Sublist gates
  log_bound : ∀ op ∈ n.sched, 0 ≤ op.gateOp.uid →
    ∀ l ∈ op.gateOp.qubits, opEnd op ≤ n.free (physOf n.laq l)
  sched_src : ∀ op ∈ n.sched, 0 ≤ op.gateOp.uid → op.gateOp ∈ gates
  log_pairwise : n.sched.Pairwise LogSep
  prog_pairwise : n.sched.Pairwise (ProgOrd gates)
  cover : ∀ g ∈ gates, (∃ h ∈ n.remaining, h.uid = g.uid) ∨
    (∃ op ∈ n.sched, op.gateOp.uid = g.uid)
  not_both : ∀ op ∈ n.sched, ∀ g ∈ n.remaining, op.gateOp.uid ≠ g.uid
  chain : ∀ i j (hi : i < gates.length) (hj : j < gates.length), i < j →
    sharesQubit (gates.get ⟨i, hi⟩) (gates.get ⟨j, hj⟩) = true →
    (∃ op ∈ n.sched, op.gateOp.uid = (gates.get ⟨j, hj⟩).uid) →
    (∃ op ∈ n.sched, op.gateOp.uid = (gates.get ⟨i, hi⟩).uid)

theorem sharesQubit_iff (g h : GateOp) :
    sharesQubit g h = true ↔ ∃ l, l ∈ g.qubits ∧ l ∈ h.qubits := by
  rw [sharesQubit, List.any_eq_true]
  constructor
  · rintro ⟨l, hl, hany⟩
    rw [List.any_eq_true] at hany
    obtain ⟨x, hx, hxe⟩ := hany
    rw [beq_iff_eq] at hxe
    exact ⟨l, hl, hxe ▸ hx⟩
  · rintro ⟨l, hl, hl2⟩
    exact ⟨l, hl, List.any_eq_true.mpr ⟨l, hl2, beq_iff_eq.mpr rfl⟩⟩

/-- With pairwise-distinct uids, a uid determines the gate. -/
theorem uid_mem_inj (gates : List GateOp) (hnd : (gates.map GateOp.uid).Nodup)
    {x y : GateOp} (hx : x ∈ gates) (hy : y ∈ gates) (hxy : x.uid = y.uid) :
    x = y := by
  obtain ⟨ix, hix⟩ := List.mem_iff_get.mp hx
  obtain ⟨iy, hiy⟩ := List.mem_iff_get.mp hy
  have hinj := List.nodup_iff_injective_get.mp hnd
  have hlen : (gates.map GateOp.uid).length = gates.length := List.length_map _ _
  have hmap : ∀ k : Fin gates.length,
      (gates.map GateOp.uid).get ⟨k.val, by rw [hlen]; exact k.isLt⟩ =
        (gates.get k).uid := by
    intro k
    rw [List.get_map]
  have heq : (gates.map GateOp.uid).get ⟨ix.val, by rw [hlen]; exact ix.isLt⟩ =
      (gates.map GateOp.uid).get ⟨iy.val, by rw [hlen]; exact iy.isLt⟩ := by
    rw [hmap, hmap, hix, hiy]
    exact hxy
  have := hinj heq
  have hval : ix.val = iy.val := by
    simpa using congrArg Fin.val this
  rw [← hix, ← hiy]
  congr 1
  exact Fin.ext hval

/-- With pairwise-distinct uids, equal uids at two positions force the
positions equal. -/
theorem uid_get_inj (gates : List GateOp) (hnd : (gates.map GateOp.uid).Nodup)
    {i j : Nat} (hi : i < gates.length) (hj : j < gates.length)
    (h : (gates.get ⟨i, hi⟩).uid = (gates.get ⟨j, hj⟩).uid) : i = j := by
  have := uid_mem_inj gates hnd (List.get_mem gates _ _) (List.get_mem gates _ _) h
  by_contra hne
  have hpair := List.nodup_iff_injective_get.mp hnd
  have hlen : (gates.map GateOp.uid).length = gates.length := List.length_map _ _
  have heq : (gates.map GateOp.uid).get ⟨i, by rw [hlen]; exact hi⟩ =
      (gates.map GateOp.uid).get ⟨j, by rw [hlen]; exact hj⟩ := by
    rw [List.get_map, List.get_map]
    exact h
  have := hpair heq
  exact hne (by simpa using congrArg Fin.val this)

/-- A two-element sublist pins ordered positions in the larger list. -/
theorem pair_sublist_index (a b : GateOp) :
    ∀ L : List GateOp, [a, b].Sublist L →
      ∃ (i j : Nat) (hi : i < L.length) (hj : j < L.length), i < j ∧
        L.get ⟨i, hi⟩ = a ∧ L.get ⟨j, hj⟩ = b := by
  intro L
  induction L with
  | nil => intro h; cases h
  | cons x tl ih =>
      intro h
      cases h with
      | cons _ h' =>
          obtain ⟨i, j, hi, hj, hij, ha, hb⟩ := ih h'
          exact ⟨i + 1, j + 1, by simpa using hi, by simpa using hj,
            by omega, ha, hb⟩
      | cons₂ _ h' =>
          have hbtl : b ∈ tl := by
            have := h'.subset
            exact this (by simp)
          obtain ⟨j, hjl⟩ := List.mem_iff_get.mp hbtl
          exact ⟨0, j.val + 1, by simp, by simpa using j.isLt, by omega,
            rfl, by simpa using hjl⟩

/-- Transposing two non-negative physical qubits commutes with the
physical-image lookup. -/
theorem physOf_map_swap (laq : List Int) (p1 p2 l : Int)
    (h1 : 0 ≤ p1) (h2 : 0 ≤ p2) :
    physOf (laq.map (swapFun p1 p2)) l = swapFun p1 p2 (physOf laq l) := by
  rw [physOf, physOf]
  split_ifs with hl
  · rw [List.getD_eq_getD_get?, List.getD_eq_getD_get?, List.get?_map]
    rcases laq.get? l.toNat with _ | x
    · show (-1 : Int) = swapFun p1 p2 (-1)
      rw [swapFun]
      split_ifs with ha hb
      · omega
      · omega
      · rfl
    · rfl
  · rw [swapFun]
    split_ifs with ha hb
    · omega
    · omega
    · rfl

/-- Appending a newly scheduled ready gate preserves the program-order
invariant, given that the new operation ends at the updated next-free
cycles of its qubits and starts no earlier than their previous next-free
cycles. -/
theorem logInv_newOp (gates : List GateOp) (n c : Node) (g : GateOp)
    (rest : List GateOp) (newOp : ScheduledGateOp)
    (hnn : ∀ x ∈ gates, 0 ≤ x.uid) (hnd : (gates.map GateOp.uid).Nodup)
    (hn : LogInv gates n)
    (hready : (g, rest) ∈ readySplit n.remaining)
    (hlaq : c.laq = n.laq) (hrem : c.remaining = rest)
    (hsched : c.sched = n.sched ++ [newOp]) (hgop : newOp.gateOp = g)
    (hmono : ∀ q, n.free q ≤ c.free q)
    (hend : ∀ l ∈ g.qubits, opEnd newOp ≤ c.free (physOf n.laq l))
    (hstart : ∀ l ∈ g.qubits, n.free (physOf n.laq l) ≤ newOp.cycle) :
    LogInv gates c := by
  obtain ⟨pre, suf, he1, he2, hpre⟩ := readySplit_eq _ _ _ hready
  have hgrem : g ∈ n.remaining := by
    rw [he1]
    exact List.mem_append_right _ (List.mem_cons_self _ _)
  have hggates : g ∈ gates := hn.rem_sub.subset hgrem
  have hguid : 0 ≤ g.uid := hnn g hggates
  have hrest_rem : rest.Sublist n.remaining := by
    rw [he1, he2]
    exact List.Sublist.append_left (List.sublist_cons_self _ _) pre
  have hremnd : (n.remaining.map GateOp.uid).Nodup :=
    List.Nodup.sublist (hn.rem_sub.map GateOp.uid) hnd
  have hgne : ∀ x ∈ rest, g.uid ≠ x.uid := by
    intro x hx hux
    rw [he1, List.map_append, List.map_cons, List.nodup_append] at hremnd
    obtain ⟨hnd1, hnd2, hdisj⟩ := hremnd
    rw [he2] at hx
    rcases List.mem_append.mp hx with hx | hx
    · exact hdisj (List.mem_map_of_mem _ hx)
        (by rw [← hux]; exact List.mem_cons_self _ _)
    · exact (List.nodup_cons.mp hnd2).1
        (by rw [hux]; exact List.mem_map_of_mem _ hx)
  constructor
  · rw [hrem]
    exact hrest_rem.trans hn.rem_sub
  · intro op hop huid l hl
    rw [hsched] at hop
    rw [hlaq]
    rcases List.mem_append.mp hop with hop | hop
    · exact le_trans (hn.log_bound op hop huid l hl) (hmono _)
    · simp only [List.mem_singleton] at hop
      subst hop
      rw [hgop] at hl
      exact hend l hl
  · intro op hop huid
    rw [hsched] at hop
    rcases List.mem_append.mp hop with hop | hop
    · exact hn.sched_src op hop huid
    · simp only [List.mem_singleton] at hop
      subst hop
      rw [hgop]
      exact hggates
  · rw [hsched, List.pairwise_append]
    refine ⟨hn.log_pairwise, List.pairwise_singleton _ _, ?_⟩
    intro op1 h1 op2 h2
    simp only [List.mem_singleton] at h2
    subst h2
    intro hu1 _ hsh
    obtain ⟨l, hl1, hl2⟩ := (sharesQubit_iff _ _).mp hsh
    rw [hgop] at hl2
    exact le_trans (hn.log_bound op1 h1 hu1 l hl1) (hstart l hl2)
  · rw [hsched, List.pairwise_append]
    refine ⟨hn.prog_pairwise, List.pairwise_singleton _ _, ?_⟩
    intro op1 h1 op2 h2
    simp only [List.mem_singleton] at h2
    subst h2
    intro i j hi hj hij hsh huid1 huid2
    rw [hgop] at huid2
    obtain ⟨op', h', hu'⟩ := hn.chain i j hi hj hij hsh ⟨op1, h1, huid1⟩
    exact hn.not_both op' h' g hgrem (by rw [hu', ← huid2])
  · intro g' hg'
    rcases hn.cover g' hg' with ⟨x, hx, hxu⟩ | ⟨op, hop, hu⟩
    · rw [he1] at hx
      rcases List.mem_append.mp hx with hx | hx
      · exact Or.inl ⟨x, by rw [hrem, he2]; exact List.mem_append_left _ hx, hxu⟩
      · rcases List.mem_cons.mp hx with hx | hx
        · subst hx
          exact Or.inr ⟨newOp,
            by rw [hsched]; exact List.mem_append_right _ (List.mem_cons_self _ _),
            by rw [hgop]; exact hxu⟩
        · exact Or.inl ⟨x, by rw [hrem, he2]; exact List.mem_append_right _ hx, hxu⟩
    · exact Or.inr ⟨op, by rw [hsched]; exact List.mem_append_left _ hop, hu⟩
  · intro op hop x hx
    rw [hsched] at hop
    rw [hrem] at hx
    rcases List.mem_append.mp hop with hop | hop
    · exact hn.not_both op hop x (hrest_rem.subset hx)
    · simp only [List.mem_singleton] at hop
      subst hop
      rw [hgop]
      exact hgne x hx
  · intro i j hi hj hij hsh hwit
    obtain ⟨op, hop, hu⟩ := hwit
    rw [hsched] at hop
    rcases List.mem_append.mp hop with hop | hop
    · obtain ⟨op', h', hu'⟩ := hn.chain i j hi hj hij hsh ⟨op, hop, hu⟩
      exact ⟨op', by rw [hsched]; exact List.mem_append_left _ h', hu'⟩
    · simp only [List.mem_singleton] at hop
      subst hop
      rw [hgop] at hu
      have hgj : g = gates.get ⟨j, hj⟩ :=
        uid_mem_inj gates hnd hggates (List.get_mem gates _ _) hu
      rcases hn.cover (gates.get ⟨i, hi⟩) (List.get_mem gates _ _) with
        ⟨x, hx, hxu⟩ | ⟨op', h', hu'⟩
      · have hxg : x = gates.get ⟨i, hi⟩ :=
          uid_mem_inj gates hnd (hn.rem_sub.subset hx) (List.get_mem gates _ _) hxu
        rw [he1] at hx
        rcases List.mem_append.mp hx with hx | hx
        · exfalso
          have hfalse := hpre x hx
          rw [hxg, hgj] at hfalse
          rw [hfalse] at hsh
          cases hsh
        · rcases List.mem_cons.mp hx with hx | hx
          · exfalso
            subst hx
            have : i = j := uid_get_inj gates hnd hi hj (by rw [← hxu, ← hu])
            omega
          · exfalso
            have hsub1 : [g, x].Sublist (g :: suf) :=
              (List.singleton_sublist.mpr hx).cons₂ g
            have hsub2 : (g :: suf).Sublist n.remaining := by
              rw [he1]
              exact List.sublist_append_right pre (g :: suf)
            have hsub : [g, x].Sublist gates :=
              (hsub1.trans hsub2).trans hn.rem_sub
            obtain ⟨p, q, hp, hq, hpq, hpa, hqb⟩ := pair_sublist_index g x gates hsub
            have hpj : p = j := uid_get_inj gates hnd hp hj (by rw [hpa]; exact hu)
            have hqi : q = i := uid_get_inj gates hnd hq hi (by rw [hqb]; exact hxu)
            omega
      · exact ⟨op', by rw [hsched]; exact List.mem_append_left _ h', hu'⟩

/-- Scheduling a ready gate preserves the program-order invariant. -/
theorem gateChild_logInv (cm : CouplingMap) (lat : GateOp → Int)
    (gates : List GateOp) (n : Node) (g : GateOp) (rest : List GateOp) (c : Node)
    (hnn : ∀ x ∈ gates, 0 ≤ x.uid) (hnd : (gates.map GateOp.uid).Nodup)
    (hd : 0 ≤ lat g) (hn : LogInv gates n)
    (hready : (g, rest) ∈ readySplit n.remaining)
    (h : gateChild cm lat n g rest = some c) : LogInv gates c := by
  rw [gateChild] at h
  split at h
  case isTrue hctrl =>
    dsimp only at h
    split at h
    case isFalse => exact absurd h (by simp)
    case isTrue hedge =>
      injection h with h
      subst h
      refine logInv_newOp gates n _ g rest _ hnn hnd hn hready rfl rfl rfl rfl
        ?_ ?_ ?_
      · dsimp only
        refine updFree2_mono _ _ _ _ ?_ ?_
        · have := le_max_left (n.free (physOf n.laq g.control))
            (n.free (physOf n.laq g.target))
          omega
        · have := le_max_right (n.free (physOf n.laq g.control))
            (n.free (physOf n.laq g.target))
          omega
      · intro l hl
        rw [GateOp.qubits, if_pos hctrl] at hl
        dsimp only
        rcases List.mem_append.mp hl with hl | hl
        · simp only [List.mem_singleton] at hl
          subst hl
          rw [updFree2_self1]
          simp [opEnd]
        · split at hl
          · simp only [List.mem_singleton] at hl
            subst hl
            rw [updFree2_self2]
            simp [opEnd]
          · cases hl
      · intro l hl
        rw [GateOp.qubits, if_pos hctrl] at hl
        dsimp only
        rcases List.mem_append.mp hl with hl | hl
        · simp only [List.mem_singleton] at hl
          subst hl
          exact le_max_left _ _
        · split at hl
          · simp only [List.mem_singleton] at hl
            subst hl
            exact le_max_right _ _
          · cases hl
  case isFalse hctrl =>
    split at h
    case isTrue htgt =>
      dsimp only at h
      injection h with h
      subst h
      refine logInv_newOp gates n _ g rest _ hnn hnd hn hready rfl rfl rfl rfl
        ?_ ?_ ?_
      · dsimp only
        exact updFree_mono _ _ _ (by omega)
      · intro l hl
        rw [GateOp.qubits, if_neg hctrl, if_pos htgt] at hl
        simp only [List.nil_append, List.mem_singleton] at hl
        subst hl
        dsimp only
        simp [opEnd, updFree]
      · intro l hl
        rw [GateOp.qubits, if_neg hctrl, if_pos htgt] at hl
        simp only [List.nil_append, List.mem_singleton] at hl
        subst hl
        dsimp only
        exact le_refl _
    case isFalse htgt =>
      injection h with h
      subst h
      refine logInv_newOp gates n _ g rest _ hnn hnd hn hready rfl rfl rfl rfl
        (fun q => le_refl _) ?_ ?_
      · intro l hl
        rw [GateOp.qubits, if_neg hctrl, if_neg htgt] at hl
        cases hl
      · intro l hl
        rw [GateOp.qubits, if_neg hctrl, if_neg htgt] at hl
        cases hl

/-- Inserting a remap preserves the program-order invariant: the swap
advances the next-free cycle of the new physical home of every logical
qubit it moves at least to the old completion bounds. -/
theorem swapChild_logInv (cm : CouplingMap) (lat : GateOp → Int)
    (gates : List GateOp) (n : Node) (e : Int × Int)
    (hE : validEdgesB cm = true) (he : e ∈ cm.edges)
    (hnn : ∀ x ∈ gates, 0 ≤ x.uid) (hnd : (gates.map GateOp.uid).Nodup)
    (hlat : ∀ g, 0 ≤ lat g) (hn : LogInv gates n) :
    LogInv gates (swapChild lat n e) := by
  obtain ⟨hp1, _, hp2, _⟩ := validEdgesB_mem cm hE e he
  have hlg := hlat (swapGate n.laq e)
  rw [swapChild]
  constructor
  · exact hn.rem_sub
  · dsimp only
    intro op hop huid l hl
    rcases List.mem_append.mp hop with hop | hop
    · have hb := hn.log_bound op hop huid l hl
      rw [physOf_map_swap n.laq e.1 e.2 l hp1 hp2]
      by_cases hP1 : physOf n.laq l = e.1
      · rw [hP1]
        show opEnd op ≤ updFree _ _ _ (swapFun e.1 e.2 e.1)
        have hsf : swapFun e.1 e.2 e.1 = e.2 := by simp [swapFun]
        rw [hsf, updFree2_self2]
        rw [hP1] at hb
        have := le_max_left (n.free e.1) (n.free e.2)
        omega
      · by_cases hP2 : physOf n.laq l = e.2
        · rw [hP2]
          have hsf : swapFun e.1 e.2 e.2 = e.1 := by
            rw [swapFun]
            split_ifs with hx hy
            · rw [hx]
            · rfl
            · exact absurd rfl hy
          rw [hsf, updFree2_self1]
          rw [hP2] at hb
          have := le_max_right (n.free e.1) (n.free e.2)
          omega
        · have hsf : swapFun e.1 e.2 (physOf n.laq l) = physOf n.laq l := by
            rw [swapFun, if_neg hP1, if_neg hP2]
          rw [hsf, updFree_ne _ _ _ _ hP2, updFree_ne _ _ _ _ hP1]
          exact hb
    · simp only [List.mem_singleton] at hop
      subst hop
      exfalso
      simp [swapGate] at huid
  · dsimp only
    intro op hop huid
    rcases List.mem_append.mp hop with hop | hop
    · exact hn.sched_src op hop huid
    · simp only [List.mem_singleton] at hop
      subst hop
      exfalso
      simp [swapGate] at huid
  · dsimp only
    rw [List.pairwise_append]
    refine ⟨hn.log_pairwise, List.pairwise_singleton _ _, ?_⟩
    intro op1 h1 op2 h2
    simp only [List.mem_singleton] at h2
    subst h2
    intro _ hu2 _
    exfalso
    simp [swapGate] at hu2
  · dsimp only
    rw [List.pairwise_append]
    refine ⟨hn.prog_pairwise, List.pairwise_singleton _ _, ?_⟩
    intro op1 h1 op2 h2
    simp only [List.mem_singleton] at h2
    subst h2
    intro i j hi hj hij hsh hu1 hu2
    have := hnn (gates.get ⟨i, hi⟩) (List.get_mem gates _ _)
    simp only [swapGate] at hu2
    omega
  · dsimp only
    intro g' hg'
    rcases hn.cover g' hg' with ⟨x, hx, hxu⟩ | ⟨op, hop, hu⟩
    · exact Or.inl ⟨x, hx, hxu⟩
    · exact Or.inr ⟨op, List.mem_append_left _ hop, hu⟩
  · dsimp only
    intro op hop x hx
    rcases List.mem_append.mp hop with hop | hop
    · exact hn.not_both op hop x hx
    · simp only [List.mem_singleton] at hop
      subst hop
      have := hnn x (hn.rem_sub.subset hx)
      simp only [swapGate]
      omega
  · dsimp only
    intro i j hi hj hij hsh hwit
    obtain ⟨op, hop, hu⟩ := hwit
    rcases List.mem_append.mp hop with hop | hop
    · obtain ⟨op', h', hu'⟩ := hn.chain i j hi hj hij hsh ⟨op, hop, hu⟩
      exact ⟨op', List.mem_append_left _ h', hu'⟩
    · exfalso
      simp only [List.mem_singleton] at hop
      subst hop
      have := hnn (gates.get ⟨j, hj⟩) (List.get_mem gates _ _)
      simp only [swapGate] at hu
      omega

/-! ### Claim C1: two-qubit operations run on coupling-map edges -/

/-- Claim C1: in every schedule produced by a successful run, every
two-qubit `ScheduledGateOp` — every operation carrying a physical
control, which includes every gate with a logical control and every
inserted swap — has its physical operand pair
`(physicalControl, physicalTarget)` in the supplied coupling map's edge
set.  Node-mutation strategies are assumed to respect the engine's
partial-solution invariant (spec section 3). -/
theorem run_schedule_respects_coupling (m : ToqmMapper) (a : RunArgs)
    (r : ToqmResult)
    (hmods : ∀ f ∈ m.nodeMods, ∀ s, EdgeInv a.couplingMap s →
      EdgeInv a.couplingMap (f s))
    (hrun : runToqm m a = .ok r) :
    ∀ op ∈ r.scheduledGates,
      (0 ≤ op.gateOp.control → 0 ≤ op.physicalControl) ∧
      (0 ≤ op.physicalControl →
        (op.physicalControl, op.physicalTarget) ∈ a.couplingMap.edges) := by
  obtain ⟨hE, hG, hcase⟩ := runToqm_ok_cases m a r hrun
  rcases hcase with hnil | ⟨b, hb, hsched⟩
  · intro op hop
    rw [hnil] at hop
    cases hop
  · have hexp : ∀ n, EdgeInv a.couplingMap n →
        ∀ c ∈ expandWith m.expanderKind a.couplingMap m.latencyFn m.costFn n,
          EdgeInv a.couplingMap (applyMods m.nodeMods c) := by
      intro n hn c hc
      refine applyMods_pres _ m.nodeMods hmods c ?_
      rcases expandWith_mem _ _ _ _ _ _ hc with ⟨g, rest, _, hgc⟩ | ⟨e, he, hce⟩
      · exact gateChild_edgeInv _ _ _ _ _ _ hE hn hgc
      · rw [hce]
        exact swapChild_edgeInv _ _ _ _ hE he hn
    have hroot : ∀ s ∈ (initialLoopState m
        (mkRoot (a.initialLaq.getD (identityLaq a.numLogicalQubits)) a.gates)).queue,
        EdgeInv a.couplingMap s := by
      intro s hs
      simp only [initialLoopState, List.mem_singleton] at hs
      subst hs
      exact ⟨fun op hop _ => absurd hop (List.not_mem_nil op),
        fun op hop _ => absurd hop (List.not_mem_nil op)⟩
    have hres := (searchLoop_pres m a.couplingMap (EdgeInv a.couplingMap) hexp
      a.fuel _ hroot (fun b0 hb0 => by simp [initialLoopState] at hb0)).2 b hb
    intro op hop
    rw [hsched] at hop
    exact ⟨fun hc => hres.1.sched_ctrl op hop hc,
      fun hpc => hres.1.sched_edges op hop hpc⟩

/-! ### Claim C2: per-physical-qubit cycle ranges are disjoint -/

/-- Claim C2: in every schedule produced by a successful run, for every
physical qubit, the scheduled operations using that qubit occupy
pairwise non-overlapping cycle ranges `[cycle, cycle + latency)`: one of
the two operations ends no later than the other starts.  Latencies are
assumed non-negative and node-mutation strategies are assumed to respect
the engine's partial-solution invariant. -/
theorem run_schedule_disjoint_cycles (m : ToqmMapper) (a : RunArgs)
    (r : ToqmResult)
    (hlat : ∀ g, 0 ≤ m.latencyFn g)
    (hmods : ∀ f ∈ m.nodeMods, ∀ s, TimeInv s → TimeInv (f s))
    (hrun : runToqm m a = .ok r) :
    ∀ q : Int, 0 ≤ q →
      ∀ i j (hi : i < r.scheduledGates.length) (hj : j < r.scheduledGates.length),
        i ≠ j →
        usesPhys (r.scheduledGates.get ⟨i, hi⟩) q →
        usesPhys (r.scheduledGates.get ⟨j, hj⟩) q →
        opEnd (r.scheduledGates.get ⟨i, hi⟩) ≤ (r.scheduledGates.get ⟨j, hj⟩).cycle ∨
        opEnd (r.scheduledGates.get ⟨j, hj⟩) ≤ (r.scheduledGates.get ⟨i, hi⟩).cycle := by
  obtain ⟨hE, hG, hcase⟩ := runToqm_ok_cases m a r hrun
  rcases hcase with hnil | ⟨b, hb, hsched⟩
  · intro q hq i j hi hj hij hu1 hu2
    rw [hnil] at hi
    exact absurd hi (by simp)
  · have hexp : ∀ n, TimeInv n →
        ∀ c ∈ expandWith m.expanderKind a.couplingMap m.latencyFn m.costFn n,
          TimeInv (applyMods m.nodeMods c) := by
      intro n hn c hc
      refine applyMods_pres _ m.nodeMods hmods c ?_
      rcases expandWith_mem _ _ _ _ _ _ hc with ⟨g, rest, _, hgc⟩ | ⟨e, he, hce⟩
      · exact gateChild_timeInv _ _ _ _ _ _ (hlat g) hn hgc
      · rw [hce]
        exact swapChild_timeInv _ _ _ hlat hn
    have hroot : ∀ s ∈ (initialLoopState m
        (mkRoot (a.initialLaq.getD (identityLaq a.numLogicalQubits)) a.gates)).queue,
        TimeInv s := by
      intro s hs
      simp only [initialLoopState, List.mem_singleton] at hs
      subst hs
      exact ⟨fun op hop => absurd hop (List.not_mem_nil op), List.Pairwise.nil⟩
    have hres := (searchLoop_pres m a.couplingMap TimeInv hexp
      a.fuel _ hroot (fun b0 hb0 => by simp [initialLoopState] at hb0)).2 b hb
    have hpw : r.scheduledGates.Pairwise PhysSep := by
      rw [hsched]
      exact hres.1.phys_pairwise
    intro q hq i j hi hj hij hu1 hu2
    rcases lt_trichotomy i j with h | h | h
    · exact Or.inl (List.pairwise_iff_get.mp hpw ⟨i, hi⟩ ⟨j, hj⟩ h q hq hu1 hu2)
    · exact absurd h hij
    · exact Or.inr (List.pairwise_iff_get.mp hpw ⟨j, hj⟩ ⟨i, hi⟩ h q hq hu2 hu1)

/-! ### Claim C3: logical program order is preserved -/

/-- Claim C3: in every schedule produced by a successful run, the input
gate list's program order per logical qubit is preserved: if an input
gate at position `i` precedes one at position `j` on a shared logical
qubit then, identifying schedule entries by the input gates' pairwise
distinct non-negative uids, the entry for gate `i` completes
(`cycle + latency`) no later than the entry for gate `j` starts.
Latencies are assumed non-negative and node-mutation strategies are
assumed to respect the engine's partial-solution invariant. -/
theorem run_preserves_program_order (m : ToqmMapper) (a : RunArgs)
    (r : ToqmResult)
    (hnn : ∀ g ∈ a.gates, 0 ≤ g.uid)
    (hnd : (a.gates.map GateOp.uid).Nodup)
    (hlat : ∀ g, 0 ≤ m.latencyFn g)
    (hmods : ∀ f ∈ m.nodeMods, ∀ s, LogInv a.gates s → LogInv a.gates (f s))
    (hrun : runToqm m a = .ok r) :
    ∀ i j (hi : i < a.gates.length) (hj : j < a.gates.length), i < j →
      sharesQubit (a.gates.get ⟨i, hi⟩) (a.gates.get ⟨j, hj⟩) = true →
      ∀ op1 ∈ r.scheduledGates, ∀ op2 ∈ r.scheduledGates,
        op1.gateOp.uid = (a.gates.get ⟨i, hi⟩).uid →
        op2.gateOp.uid = (a.gates.get ⟨j, hj⟩).uid →
        opEnd op1 ≤ op2.cycle := by
  obtain ⟨hE, hG, hcase⟩ := runToqm_ok_cases m a r hrun
  rcases hcase with hnil | ⟨b, hb, hsched⟩
  · intro i j hi hj hij hsh op1 hop1
    rw [hnil] at hop1
    cases hop1
  · have hexp : ∀ n, LogInv a.gates n →
        ∀ c ∈ expandWith m.expanderKind a.couplingMap m.latencyFn m.costFn n,
          LogInv a.gates (applyMods m.nodeMods c) := by
      intro n hn c hc
      refine applyMods_pres _ m.nodeMods hmods c ?_
      rcases expandWith_mem _ _ _ _ _ _ hc with ⟨g, rest, hready, hgc⟩ | ⟨e, he, hce⟩
      · exact gateChild_logInv _ _ _ _ _ _ _ hnn hnd (hlat g) hn hready hgc
      · rw [hce]
        exact swapChild_logInv _ _ _ _ _ hE he hnn hnd hlat hn
    have hroot : ∀ s ∈ (initialLoopState m
        (mkRoot (a.initialLaq.getD (identityLaq a.numLogicalQubits)) a.gates)).queue,
        LogInv a.gates s := by
      intro s hs
      simp only [initialLoopState, List.mem_singleton] at hs
      subst hs
      constructor
      · exact List.Sublist.refl _
      · intro op hop
        cases hop
      · intro op hop
        cases hop
      · exact List.Pairwise.nil
      · exact List.Pairwise.nil
      · intro g hg
        exact Or.inl ⟨g, hg, rfl⟩
      · intro op hop
        cases hop
      · rintro i j hi hj hij hsh ⟨op, hop, -⟩
        cases hop
    have hres := (searchLoop_pres m a.couplingMap (LogInv a.gates) hexp
      a.fuel _ hroot (fun b0 hb0 => by simp [initialLoopState] at hb0)).2 b hb
    obtain ⟨hinv, hbrem⟩ := hres
    have hlpw : r.scheduledGates.Pairwise LogSep := by
      rw [hsched]
      exact hinv.log_pairwise
    have hppw : r.scheduledGates.Pairwise (ProgOrd a.gates) := by
      rw [hsched]
      exact hinv.prog_pairwise
    have hsrc : ∀ op ∈ r.scheduledGates, 0 ≤ op.gateOp.uid →
        op.gateOp ∈ a.gates := by
      rw [hsched]
      exact hinv.sched_src
    intro i j hi hj hij hsh op1 hop1 op2 hop2 hu1 hu2
    obtain ⟨k1, hk1⟩ := List.mem_iff_get.mp hop1
    obtain ⟨k2, hk2⟩ := List.mem_iff_get.mp hop2
    have hgi : op1.gateOp = a.gates.get ⟨i, hi⟩ :=
      uid_mem_inj a.gates hnd
        (hsrc op1 hop1 (by rw [hu1]; exact hnn _ (List.get_mem _ _ _)))
        (List.get_mem _ _ _) hu1
    have hgj : op2.gateOp = a.gates.get ⟨j, hj⟩ :=
      uid_mem_inj a.gates hnd
        (hsrc op2 hop2 (by rw [hu2]; exact hnn _ (List.get_mem _ _ _)))
        (List.get_mem _ _ _) hu2
    rcases lt_trichotomy k1.val k2.val with hk | hk | hk
    · have hR := List.pairwise_iff_get.mp hlpw k1 k2 hk
      rw [hk1, hk2] at hR
      apply hR
      · rw [hu1]
        exact hnn _ (List.get_mem _ _ _)
      · rw [hu2]
        exact hnn _ (List.get_mem _ _ _)
      · rw [hgi, hgj]
        exact hsh
    · exfalso
      have heq : op1 = op2 := by
        rw [← hk1, ← hk2]
        congr 1
        exact Fin.ext hk
      have : i = j := uid_get_inj a.gates hnd hi hj (by rw [← hu1, heq, hu2])
      omega
    · exfalso
      have hR := List.pairwise_iff_get.mp hppw k2 k1 hk
      rw [hk1, hk2] at hR
      exact hR i j hi hj hij hsh hu2 hu1

/-! ### Claim C7: no-remap exhaustion yields EmptySolutionError -/

/-- Claim C7: with the no-remap expansion variant configured (and no
node mutations), if some two-qubit gate's physical operand pair under
the pinned initial mapping is missing from the coupling map, `run`
reports `EmptySolutionError` for every exploration budget, and the
frontier is genuinely exhausted once the budget reaches `expoBound` of
the gate count — the search terminates, it neither loops forever nor
crashes.  Conversely, `EmptySolutionError` is raised only when the gate
list is non-empty and the search never completed a schedule (its best
completed node is `none`). -/
theorem run_noswaps_missing_edge (m : ToqmMapper) (a : RunArgs) :
    (∀ gS, m.expanderKind = .noSwaps → m.nodeMods = [] →
      validEdgesB a.couplingMap = true →
      a.gates.all (validGateB a.numLogicalQubits) = true →
      validMappingB a.couplingMap.numPhysicalQubits a.numLogicalQubits
        (a.initialLaq.getD (identityLaq a.numLogicalQubits)) = true →
      gS ∈ a.gates → 0 ≤ gS.control →
      (physOf (a.initialLaq.getD (identityLaq a.numLogicalQubits)) gS.control,
        physOf (a.initialLaq.getD (identityLaq a.numLogicalQubits)) gS.target) ∉
          a.couplingMap.edges →
      runToqm m a = .error .EmptySolutionError) ∧
    (m.expanderKind = .noSwaps → m.nodeMods = [] →
      expoBound a.gates.length ≤ a.fuel →
      (searchLoop m a.couplingMap a.fuel (initialLoopState m
        (mkRoot (a.initialLaq.getD (identityLaq a.numLogicalQubits)) a.gates))).queue = []) ∧
    (runToqm m a = .error .EmptySolutionError →
      a.gates ≠ [] ∧
      (searchLoop m a.couplingMap a.fuel (initialLoopState m
        (mkRoot (a.initialLaq.getD (identityLaq a.numLogicalQubits)) a.gates))).best = none) := by
  refine ⟨?_, ?_, ?_⟩
  · intro gS hek hmods hE hG hM hgS hc hmiss
    have hexp : ∀ n, StuckInv (a.initialLaq.getD (identityLaq a.numLogicalQubits))
        a.couplingMap n →
        ∀ c ∈ expandWith m.expanderKind a.couplingMap m.latencyFn m.costFn n,
          StuckInv (a.initialLaq.getD (identityLaq a.numLogicalQubits))
            a.couplingMap (applyMods m.nodeMods c) := by
      intro n hn c hcm
      have hfun : applyMods m.nodeMods c = c := by
        rw [hmods]
        rfl
      rw [hfun]
      rw [hek] at hcm
      simp only [expandWith] at hcm
      obtain ⟨p, hp, hpc⟩ := List.mem_filterMap.mp hcm
      exact gateChild_stuckInv _ _ _ _ _ _ _ hn hp hpc
    have hpres := searchLoop_pres m a.couplingMap
      (StuckInv (a.initialLaq.getD (identityLaq a.numLogicalQubits)) a.couplingMap)
      hexp a.fuel
      (initialLoopState m
        (mkRoot (a.initialLaq.getD (identityLaq a.numLogicalQubits)) a.gates))
      (by
        intro s hs
        simp only [initialLoopState, List.mem_singleton] at hs
        subst hs
        exact ⟨rfl, gS, hgS, hc, hmiss⟩)
      (fun b hb => by simp [initialLoopState] at hb)
    have hnone : (searchLoop m a.couplingMap a.fuel (initialLoopState m
        (mkRoot (a.initialLaq.getD (identityLaq a.numLogicalQubits)) a.gates))).best =
        none := by
      rcases hbb : (searchLoop m a.couplingMap a.fuel (initialLoopState m
          (mkRoot (a.initialLaq.getD (identityLaq a.numLogicalQubits)) a.gates))).best
        with _ | b
      · rfl
      · obtain ⟨⟨_, g', hg', _⟩, hrem⟩ := hpres.2 b hbb
        rw [hrem] at hg'
        cases hg'
    have hne : a.gates.isEmpty = false := by
      rcases hgl : a.gates with _ | ⟨x, xs⟩
      · rw [hgl] at hgS
        cases hgS
      · rfl
    rw [runToqm]
    simp [hE, hG, hM, hnone, hne]
  · intro hek hmods hfuel
    apply searchLoop_exhausts m a.couplingMap hek hmods
    simpa [initialLoopState, queueMeasure, mkRoot] using hfuel
  · intro h
    rw [runToqm] at h
    rcases hE : validEdgesB a.couplingMap with _ | _
    · simp [hE] at h
    · rcases hG : a.gates.all (validGateB a.numLogicalQubits) with _ | _
      · simp [hE, hG] at h
      · rcases hM : validMappingB a.couplingMap.numPhysicalQubits a.numLogicalQubits
            (a.initialLaq.getD (identityLaq a.numLogicalQubits)) with _ | _
        · simp [hE, hG, hM] at h
        · rcases hbest : (searchLoop m a.couplingMap a.fuel (initialLoopState m
              (mkRoot (a.initialLaq.getD (identityLaq a.numLogicalQubits)) a.gates))).best
            with _ | b
          · rcases hEmp : a.gates.isEmpty with _ | _
            · refine ⟨?_, rfl⟩
              intro hgl
              rw [hgl] at hEmp
              simp at hEmp
            · simp [hE, hG, hM, hbest, hEmp] at h
          · simp [hE, hG, hM, hbest] at h

/-! ### Demonstration instances used by witnesses -/

/-- A mapper with the binding's default-style strategy choices. -/
def demoMapper : ToqmMapper :=
  { queueKind := .defaultQueue, expanderKind := .defaultExpander,
    costFn := SimpleCost, latencyFn := Latency_1, nodeMods := [], filters := [],
    initialSearchCycles := 0, retainPopped := false, verbose := false }

/-- The no-remap variant of the demonstration mapper. -/
def demoMapperNS : ToqmMapper :=
  { demoMapper with expanderKind := .noSwaps }

/-- A caller-side object store holding one strategy object per family. -/
def demoHeap : Heap :=
  [.queueS .defaultQueue, .expanderS .defaultExpander, .costS SimpleCost,
   .latencyS Latency_1]

/-- A small well-formed argument bundle. -/
def demoArgs : RunArgs :=
  { gates := [GateOp.mk4 0 "cx" 0 1], numLogicalQubits := 2,
    couplingMap := CouplingMap.make 2 [(0, 1)], initialLaq := none, fuel := 4 }

/-- Arguments on which the no-remap mapper finds a complete schedule. -/
def demoArgsOK : RunArgs :=
  { gates := [GateOp.mk4 0 "cx" 0 1], numLogicalQubits := 2,
    couplingMap := CouplingMap.make 2 [(0, 1)], initialLaq := none, fuel := 3 }

/-- The result of `runToqm demoMapperNS demoArgsOK`. -/
def demoRunResult : ToqmResult :=
  { scheduledGates :=
      [{ gateOp := GateOp.mk4 0 "cx" 0 1, physicalTarget := 1,
         physicalControl := 0, cycle := 0, latency := 1 }],
    remainingInQueue := 0, numPhysicalQubits := 2, numLogicalQubits := 2,
    laq := [0, 1], inferredQal := [0, 1], inferredLaq := [0, 1],
    idealCycles := 1, numPopped := 2, filterStats := [] }

theorem demoRun_eq : runToqm demoMapperNS demoArgsOK = .ok demoRunResult := by
  rfl

/-- Arguments with two dependent gates on the same logical qubit pair. -/
def argsTwo : RunArgs :=
  { gates := [GateOp.mk4 0 "cx" 0 1, GateOp.mk4 1 "cx" 1 0], numLogicalQubits := 2,
    couplingMap := CouplingMap.make 2 [(0, 1), (1, 0)], initialLaq := none,
    fuel := 4 }

/-- The result of `runToqm demoMapperNS argsTwo`. -/
def demoRunResult2 : ToqmResult :=
  { scheduledGates :=
      [{ gateOp := GateOp.mk4 0 "cx" 0 1, physicalTarget := 1,
         physicalControl := 0, cycle := 0, latency := 1 },
       { gateOp := GateOp.mk4 1 "cx" 1 0, physicalTarget := 0,
         physicalControl := 1, cycle := 1, latency := 1 }],
    remainingInQueue := 0, numPhysicalQubits := 2, numLogicalQubits := 2,
    laq := [0, 1], inferredQal := [0, 1], inferredLaq := [0, 1],
    idealCycles := 2, numPopped := 3, filterStats := [] }

theorem demoRun2_eq : runToqm demoMapperNS argsTwo = .ok demoRunResult2 := by
  rfl

theorem run_preserves_program_order_witness :
    ∃ r, runToqm demoMapperNS argsTwo = .ok r ∧
      ∀ i j (hi : i < argsTwo.gates.length) (hj : j < argsTwo.gates.length),
        i < j →
        sharesQubit (argsTwo.gates.get ⟨i, hi⟩) (argsTwo.gates.get ⟨j, hj⟩) = true →
        ∀ op1 ∈ r.scheduledGates, ∀ op2 ∈ r.scheduledGates,
          op1.gateOp.uid = (argsTwo.gates.get ⟨i, hi⟩).uid →
          op2.gateOp.uid = (argsTwo.gates.get ⟨j, hj⟩).uid →
          opEnd op1 ≤ op2.cycle :=
  ⟨demoRunResult2, demoRun2_eq,
    run_preserves_program_order demoMapperNS argsTwo demoRunResult2
      (by decide) (by decide) (fun g => zero_le_one)
      (fun f hf => absurd hf (List.not_mem_nil f)) demoRun2_eq⟩

/-- Arguments whose only gate needs the missing edge `(0, 1)`. -/
def argsStuck : RunArgs :=
  { gates := [GateOp.mk4 0 "cx" 0 1], numLogicalQubits := 2,
    couplingMap := CouplingMap.make 2 [], initialLaq := none, fuel := 2 }

theorem run_noswaps_missing_edge_witness :
    runToqm demoMapperNS argsStuck = .error .EmptySolutionError ∧
    (searchLoop demoMapperNS argsStuck.couplingMap argsStuck.fuel
      (initialLoopState demoMapperNS
        (mkRoot (argsStuck.initialLaq.getD (identityLaq argsStuck.numLogicalQubits))
          argsStuck.gates))).queue = [] ∧
    argsStuck.gates ≠ [] := by
  have hA := (run_noswaps_missing_edge demoMapperNS argsStuck).1 (GateOp.mk4 0 "cx" 0 1)
    rfl rfl (by decide) (by decide) (by decide) (by decide) (by decide) (by decide)
  refine ⟨hA, ?_, ?_⟩
  · exact (run_noswaps_missing_edge demoMapperNS argsStuck).2.1 rfl rfl (by decide)
  · exact ((run_noswaps_missing_edge demoMapperNS argsStuck).2.2 hA).1

theorem run_schedule_respects_coupling_witness :
    ∃ r, runToqm demoMapperNS demoArgsOK = .ok r ∧
      ∀ op ∈ r.scheduledGates,
        (0 ≤ op.gateOp.control → 0 ≤ op.physicalControl) ∧
        (0 ≤ op.physicalControl →
          (op.physicalControl, op.physicalTarget) ∈ demoArgsOK.couplingMap.edges) :=
  ⟨demoRunResult, demoRun_eq,
    run_schedule_respects_coupling demoMapperNS demoArgsOK demoRunResult
      (fun f hf => absurd hf (List.not_mem_nil f)) demoRun_eq⟩

theorem run_schedule_disjoint_cycles_witness :
    ∃ r, runToqm demoMapperNS demoArgsOK = .ok r ∧
      ∀ q : Int, 0 ≤ q →
        ∀ i j (hi : i < r.scheduledGates.length)
          (hj : j < r.scheduledGates.length), i ≠ j →
          usesPhys (r.scheduledGates.get ⟨i, hi⟩) q →
          usesPhys (r.scheduledGates.get ⟨j, hj⟩) q →
          opEnd (r.scheduledGates.get ⟨i, hi⟩) ≤
            (r.scheduledGates.get ⟨j, hj⟩).cycle ∨
          opEnd (r.scheduledGates.get ⟨j, hj⟩) ≤
            (r.scheduledGates.get ⟨i, hi⟩).cycle :=
  ⟨demoRunResult, demoRun_eq,
    run_schedule_disjoint_cycles demoMapperNS demoArgsOK demoRunResult
      (fun g => zero_le_one) (fun f hf => absurd hf (List.not_mem_nil f))
      demoRun_eq⟩

/-! ### Claim C4: eager structural validation -/

/-- Claim C4: structural input errors — an out-of-range coupling-map
edge, a gate whose control equals its target or references an
out-of-range logical qubit, or an initial mapping that is not an
injective array of the right cardinality — are detected before any
search work begins (the outcome is the same for every exploration
budget, including zero), and the run is rejected with the corresponding
error kind; the error carries no partial state. -/
theorem run_validates_input_eagerly (m : ToqmMapper) (a : RunArgs) :
    (validEdgesB a.couplingMap = false →
      ∀ f, runToqm m { a with fuel := f } = .error .InvalidCouplingMap) ∧
    (validEdgesB a.couplingMap = true →
      a.gates.all (validGateB a.numLogicalQubits) = false →
      ∀ f, runToqm m { a with fuel := f } = .error .InvalidGateOperands) ∧
    (validEdgesB a.couplingMap = true →
      a.gates.all (validGateB a.numLogicalQubits) = true →
      validMappingB a.couplingMap.numPhysicalQubits a.numLogicalQubits
        (a.initialLaq.getD (identityLaq a.numLogicalQubits)) = false →
      ∀ f, runToqm m { a with fuel := f } = .error .InvalidInitialMapping) := by
  refine ⟨fun h1 f => ?_, fun h1 h2 f => ?_, fun h1 h2 h3 f => ?_⟩
  · simp [runToqm, h1]
  · simp [runToqm, h1, h2]
  · simp [runToqm, h1, h2, h3]

/-- Argument bundle with an edge endpoint outside `[0, 1)`. -/
def argsBadCM : RunArgs :=
  { gates := [], numLogicalQubits := 2,
    couplingMap := CouplingMap.make 1 [(0, 1)], initialLaq := none, fuel := 4 }

/-- Argument bundle with a gate whose control equals its target. -/
def argsBadGate : RunArgs :=
  { gates := [GateOp.mk4 0 "cx" 1 1], numLogicalQubits := 2,
    couplingMap := CouplingMap.make 2 [(0, 1)], initialLaq := none, fuel := 4 }

/-- Argument bundle with a non-injective initial mapping. -/
def argsBadMap : RunArgs :=
  { gates := [], numLogicalQubits := 2,
    couplingMap := CouplingMap.make 2 [(0, 1)], initialLaq := some [0, 0], fuel := 4 }

theorem run_validates_input_eagerly_witness :
    runToqm demoMapper argsBadCM = .error .InvalidCouplingMap ∧
    runToqm demoMapper argsBadGate = .error .InvalidGateOperands ∧
    runToqm demoMapper argsBadMap = .error .InvalidInitialMapping :=
  ⟨(run_validates_input_eagerly demoMapper argsBadCM).1 (by decide) argsBadCM.fuel,
   (run_validates_input_eagerly demoMapper argsBadGate).2.1 (by decide) (by decide)
     argsBadGate.fuel,
   (run_validates_input_eagerly demoMapper argsBadMap).2.2 (by decide) (by decide)
     (by decide) argsBadMap.fuel⟩

/-! ### Claim C8: the empty gate list is a trivial success -/

/-- Claim C8: for an empty gate list, any valid coupling map and any
valid (or defaulted) initial mapping, the run succeeds with an empty
schedule, `idealCycles = 0`, exactly one popped state (the
trivially-terminal root) and an exhausted frontier — not an
`EmptySolutionError`. -/
theorem run_empty_gate_list (m : ToqmMapper) (a : RunArgs)
    (hg : a.gates = [])
    (hE : validEdgesB a.couplingMap = true)
    (hM : validMappingB a.couplingMap.numPhysicalQubits a.numLogicalQubits
      (a.initialLaq.getD (identityLaq a.numLogicalQubits)) = true)
    (hf : 1 ≤ a.fuel) :
    ∃ r, runToqm m a = .ok r ∧ r.scheduledGates = [] ∧ r.idealCycles = 0 ∧
      r.numPopped = 1 ∧ r.remainingInQueue = 0 := by
  obtain ⟨gs, nL, cm, il, fl⟩ := a
  simp only at hg hE hM hf ⊢
  subst hg
  obtain ⟨k, hk⟩ : ∃ k, fl = k + 1 := ⟨fl - 1, by omega⟩
  subst hk
  have hloop :
      searchLoop m cm (k + 1)
        (initialLoopState m (mkRoot (il.getD (identityLaq nL)) [])) =
      { queue := [], mems := m.filters.map (fun _ => []),
        stats := m.filters.map (fun _ => (0, 0)), numPopped := 1,
        best := some (mkRoot (il.getD (identityLaq nL)) []) } := by
    simp [searchLoop, initialLoopState, popMin, mkRoot, updateBest,
      searchLoop_nil_queue]
  refine ⟨mkResult ⟨[], nL, cm, il, k + 1⟩ m (il.getD (identityLaq nL)) ⟨[], m.filters.map (fun _ => []), m.filters.map (fun _ => (0, 0)), 1, some (mkRoot (il.getD (identityLaq nL)) [])⟩ (mkRoot (il.getD (identityLaq nL)) []), ?_, ?_, ?_, ?_, ?_⟩
  · simp [runToqm, hE, hM, hloop]
  · simp [mkResult, mkRoot]
  · simp [mkResult, idealCyclesCalc_nil]
  · simp [mkResult]
  · simp [mkResult]

theorem run_empty_gate_list_witness :
    ∃ r, runToqm demoMapper
        { gates := [], numLogicalQubits := 2,
          couplingMap := CouplingMap.make 2 [(0, 1)], initialLaq := none,
          fuel := 4 } = .ok r ∧
      r.scheduledGates = [] ∧ r.idealCycles = 0 ∧ r.numPopped = 1 ∧
      r.remainingInQueue = 0 :=
  run_empty_gate_list demoMapper _ rfl (by decide) (by decide) (by decide)

/-! ### Claim C10: value construction performs no validation -/

/-- Claim C10: the binding's `GateOp` constructors succeed for every
pair of integers — including control equal to target and negative
indices — and store the operands unchanged; `CouplingMap` construction
and `edges` field assignment accept any edge set without range checks.
Violations surface only later, at `run` time, as the corresponding
validation error. -/
theorem value_construction_unvalidated :
    (∀ u ty c t, (GateOp.mk4 u ty c t).uid = u ∧ (GateOp.mk4 u ty c t).type = ty ∧
      (GateOp.mk4 u ty c t).control = c ∧ (GateOp.mk4 u ty c t).target = t) ∧
    (∀ u ty t, (GateOp.mk3 u ty t).control = -1 ∧ (GateOp.mk3 u ty t).target = t) ∧
    (∀ u ty, (GateOp.mk2 u ty).control = -1 ∧ (GateOp.mk2 u ty).target = -1) ∧
    (∀ g c, (GateOp.withControl g c).control = c) ∧
    (∀ n es, (CouplingMap.make n es).numPhysicalQubits = n ∧
      (CouplingMap.make n es).edges = es) ∧
    (∀ cm es, (CouplingMap.withEdges cm es).edges = es) ∧
    (∀ m a g, g ∈ a.gates → 0 ≤ g.control → g.control = g.target →
      validEdgesB a.couplingMap = true →
      runToqm m a = .error .InvalidGateOperands) := by
  refine ⟨fun u ty c t => ⟨rfl, rfl, rfl, rfl⟩, fun u ty t => ⟨rfl, rfl⟩,
    fun u ty => ⟨rfl, rfl⟩, fun g c => rfl, fun n es => ⟨rfl, rfl⟩,
    fun cm es => rfl, fun m a g hmem hc hct hE => ?_⟩
  have hbad : validGateB a.numLogicalQubits g = false := by
    simp only [validGateB, Bool.and_eq_false_iff, Bool.or_eq_false_iff]
    right
    constructor
    · simp only [beq_eq_false_iff_ne, ne_eq]
      omega
    · simp [hct]
  have hall : a.gates.all (validGateB a.numLogicalQubits) = false := by
    rcases hb : a.gates.all (validGateB a.numLogicalQubits) with _ | _
    · rfl
    · exact absurd ((List.all_eq_true.mp hb) g hmem) (by simp [hbad])
  simpa using (run_validates_input_eagerly m a).2.1 hE hall a.fuel

theorem value_construction_unvalidated_witness :
    (GateOp.mk4 7 "cx" 3 3).control = 3 ∧ (GateOp.mk4 7 "cx" (-5) (-9)).target = -9 ∧
    (CouplingMap.make 1 [(0, 1)]).edges = [(0, 1)] ∧
    runToqm demoMapper argsBadGate = .error .InvalidGateOperands :=
  ⟨(value_construction_unvalidated.1 7 "cx" 3 3).2.2.1,
   (value_construction_unvalidated.1 7 "cx" (-5) (-9)).2.2.2,
   (value_construction_unvalidated.2.2.2.2.1 1 [(0, 1)]).2,
   value_construction_unvalidated.2.2.2.2.2.2 demoMapper argsBadGate
     (GateOp.mk4 0 "cx" 1 1) (by decide) (by decide) (by decide) (by decide)⟩

/-! ### Claim C5: re-running with the same inputs is deterministic -/

/-- Claim C5: running the mapper twice in sequence on the same instance
with the same gate list, coupling map, initial mapping and strategy
configuration yields two identical results — the same `ScheduledGateOp`
sequence and identical statistics (`numPopped`, `remainingInQueue`,
`filterStats`, `idealCycles`, inferred mappings), as full `ToqmResult`
equality. -/
theorem rerun_same_inputs_identical (m : ToqmMapper) (a : RunArgs) :
    runSeq m [a, a] = [runToqm m a, runToqm m a] := by
  simp [runSeq, runMember]

/-! ### Claim C9: `run` is a const operation on the mapper -/

/-- Claim C9: a `run` call leaves the mapper object unchanged, and in
any sequence of runs on one instance every run behaves exactly as a
first run would (no search state leaks between runs). -/
theorem run_is_const_member (m : ToqmMapper) :
    (∀ a, (runMember m a).2 = m) ∧
    (∀ as, runSeq m as = as.map (fun a => runToqm m a)) := by
  refine ⟨fun a => rfl, fun as => ?_⟩
  induction as with
  | nil => rfl
  | cons a as ih => simpa [runSeq, runMember] using ih

/-! ### Claim C6: the mapper owns clones of the supplied strategies -/

theorem castAllNodeMods_congr (h h' : Heap) (rs : List Nat)
    (hr : ∀ r ∈ rs, h[r]? = h'[r]?) :
    castAllNodeMods h rs = castAllNodeMods h' rs := by
  induction rs with
  | nil => rfl
  | cons r rs ih =>
      simp only [castAllNodeMods, hr r (by simp)]
      rw [ih (fun x hx => hr x (by simp [hx]))]

theorem castAllFilters_congr (h h' : Heap) (rs : List Nat)
    (hr : ∀ r ∈ rs, h[r]? = h'[r]?) :
    castAllFilters h rs = castAllFilters h' rs := by
  induction rs with
  | nil => rfl
  | cons r rs ih =>
      simp only [castAllFilters, hr r (by simp)]
      rw [ih (fun x hx => hr x (by simp [hx]))]

/-- Claim C6: the mapper is constructed from clones of the supplied
strategy objects: a caller session that constructs the mapper, then
mutates any of its own strategy objects, then runs, produces exactly
the output of the session without the mutations; and the constructed
mapper depends only on the values the references held at construction
time. -/
theorem mapper_owns_strategy_clones :
    (∀ (h : Heap) (qr er cr lr : Nat) (mrs frs : List Nat) (isc : Int)
        (muts : List (Nat × StrategyObj)) (a : RunArgs),
      constructMutateRun h qr er cr lr mrs frs isc muts a =
        constructMutateRun h qr er cr lr mrs frs isc [] a) ∧
    (∀ (h h' : Heap) (qr er cr lr : Nat) (mrs frs : List Nat) (isc : Int),
      h[qr]? = h'[qr]? → h[er]? = h'[er]? → h[cr]? = h'[cr]? → h[lr]? = h'[lr]? →
      (∀ r ∈ mrs, h[r]? = h'[r]?) → (∀ r ∈ frs, h[r]? = h'[r]?) →
      mkToqmMapperFromRefs h qr er cr lr mrs frs isc =
        mkToqmMapperFromRefs h' qr er cr lr mrs frs isc) := by
  constructor
  · intro h qr er cr lr mrs frs isc muts a
    unfold constructMutateRun
    cases mkToqmMapperFromRefs h qr er cr lr mrs frs isc <;> rfl
  · intro h h' qr er cr lr mrs frs isc h1 h2 h3 h4 h5 h6
    unfold mkToqmMapperFromRefs
    rw [h1, h2, h3, h4, castAllNodeMods_congr h h' mrs h5,
      castAllFilters_congr h h' frs h6]

theorem mapper_owns_strategy_clones_witness :
    constructMutateRun demoHeap 0 1 2 3 [] [] 0
        [(2, .costS (fun _ => 99))] demoArgs =
      constructMutateRun demoHeap 0 1 2 3 [] [] 0 [] demoArgs ∧
    mkToqmMapperFromRefs demoHeap 0 1 2 3 [] [] 0 =
      mkToqmMapperFromRefs demoHeap 0 1 2 3 [] [] 0 :=
  ⟨mapper_owns_strategy_clones.1 demoHeap 0 1 2 3 [] [] 0
      [(2, .costS (fun _ => 99))] demoArgs,
   mapper_owns_strategy_clones.2 demoHeap demoHeap 0 1 2 3 [] [] 0
      rfl rfl rfl rfl (fun _ _ => rfl) (fun _ _ => rfl)⟩

end Toqm
